import Mathlib

/-!
Verification development for the Math-Calculation repository.

The numeric kernel lives in `src/components/EquationEditor.tsx` (expression
evaluation wrapper over mathjs, central-difference derivative, Simpson-rule
integral, matrix parse/add/mul/determinant/inverse) and the graph metrics
engine lives in the GraphTheoryPage component (BFS distances, distance
matrix, diameter/radius/average distance).

Embedding conventions:
* JavaScript numbers are modelled by `JsNum`: an exact rational together
  with the non-finite results Infinity, -Infinity and NaN.  IEEE-754
  rounding is below the granularity of every claim (all claims are about
  the exact formulas computed and about finiteness), so rationals stand in
  for finite doubles; the non-finite values and the `Number.isFinite`
  checks are modelled explicitly.
* The mathjs `evaluate` call is an external library; it is modelled as an
  abstract parameter `ev : String → Scope → Except String MathVal` where a
  `MathVal` is either a JS number or a non-number value (complex, matrix,
  boolean, string …) carrying the JS number its `Number(-)` coercion
  yields.  Thrown JS exceptions are modelled by `Except.error` carrying
  the message of the thrown error.
* Mutable JS arrays appear in the matrix routines; those are embedded with
  an explicit store (heap) of rows so that the no-mutation claim about the
  caller-supplied matrices is a real statement (see the `Store` section).
-/

namespace MathCalc

/-- A JavaScript number: a finite value (modelled as an exact rational) or
one of the non-finite values Infinity, -Infinity, NaN. -/
inductive JsNum : Type where
  | fin (q : ℚ)
  | inf
  | ninf
  | nan
deriving DecidableEq, Repr

namespace JsNum

/-- Model of `Number.isFinite`. -/
def isFinite : JsNum → Bool
  | fin _ => true
  | _ => false

/-- JS addition (`+`) on numbers. -/
def add : JsNum → JsNum → JsNum
  | fin a, fin b => fin (a + b)
  | nan, _ => nan
  | _, nan => nan
  | inf, ninf => nan
  | ninf, inf => nan
  | inf, _ => inf
  | _, inf => inf
  | ninf, _ => ninf
  | _, ninf => ninf

/-- JS subtraction (`-`) on numbers. -/
def sub : JsNum → JsNum → JsNum
  | fin a, fin b => fin (a - b)
  | nan, _ => nan
  | _, nan => nan
  | inf, inf => nan
  | ninf, ninf => nan
  | inf, _ => inf
  | _, inf => ninf
  | ninf, _ => ninf
  | _, ninf => inf

/-- JS multiplication (`*`) on numbers (signed zero is not distinguished:
a product of a non-finite value with zero is NaN, with a nonzero finite
value it keeps the appropriate sign). -/
def mul : JsNum → JsNum → JsNum
  | fin a, fin b => fin (a * b)
  | nan, _ => nan
  | _, nan => nan
  | inf, inf => inf
  | inf, ninf => ninf
  | ninf, inf => ninf
  | ninf, ninf => inf
  | inf, fin b => if 0 < b then inf else if b < 0 then ninf else nan
  | ninf, fin b => if 0 < b then ninf else if b < 0 then inf else nan
  | fin a, inf => if 0 < a then inf else if a < 0 then ninf else nan
  | fin a, ninf => if 0 < a then ninf else if a < 0 then inf else nan

/-- JS division (`/`) on numbers (again without signed zero: a nonzero
finite value divided by zero gives the signed infinity, `0/0` gives NaN). -/
def div : JsNum → JsNum → JsNum
  | fin a, fin b =>
      if b ≠ 0 then fin (a / b)
      else if 0 < a then inf else if a < 0 then ninf else nan
  | nan, _ => nan
  | _, nan => nan
  | inf, inf => nan
  | inf, ninf => nan
  | ninf, inf => nan
  | ninf, ninf => nan
  | inf, fin b => if b < 0 then ninf else inf
  | ninf, fin b => if b < 0 then inf else ninf
  | fin _, inf => fin 0
  | fin _, ninf => fin 0

end JsNum

/-- A value produced by the mathjs `evaluate` call: either a JS number, or
a non-number value (mathjs can return complex numbers, matrices, booleans,
strings, …).  A non-number value carries the JS number that the JavaScript
`Number(-)` coercion applied to it yields (e.g. NaN for a complex number,
0 or 1 for a boolean). -/
inductive MathVal : Type where
  | num (j : JsNum)
  | other (coerced : JsNum)
deriving DecidableEq, Repr

/-- The JavaScript `Number(-)` coercion applied to a mathjs result. -/
def MathVal.toNumber : MathVal → JsNum
  | .num j => j
  | .other j => j

/-- An evaluation scope, i.e. the JS object passed as second argument to
`math.evaluate` (e.g. `{ x }`): a partial map from variable names to JS
numbers. -/
def Scope : Type := String → Option JsNum

/-- The empty scope `{}` (the default value of the `scope` parameter of
`evaluateExpression`). -/
def emptyScope : Scope := fun _ => none

/-- The scope `{ x }` binding the single variable `x`. -/
def xScope (x : JsNum) : Scope :=
  fun k => if k = "x" then some x else none

/-- The abstract mathjs evaluation engine: given the cleaned expression
text and a scope it either returns a value or throws (returns the message
of the thrown error).  The kernel under verification treats it as an
opaque collaborator, so every theorem quantifies over it. -/
def MathEngine : Type := String → Scope → Except String MathVal

/-- Substring test (JavaScript `String.prototype.includes`), on character
lists: `hasInfixChars s pat` is true when `pat` occurs contiguously in
`s`. -/
def hasInfixChars : List Char → List Char → Bool
  | _, [] => true
  | [], _ :: _ => false
  | c :: rest, pat =>
      isPrefixChars pat (c :: rest) || hasInfixChars rest pat
where
  /-- Prefix test on character lists. -/
  isPrefixChars : List Char → List Char → Bool
    | [], _ => true
    | _ :: _, [] => false
    | a :: as, b :: bs => a = b && isPrefixChars as bs

/-- JavaScript `msg.includes(pat)`. -/
def strIncludes (msg pat : String) : Bool :=
  hasInfixChars msg.toList pat.toList

/-- JavaScript `msg.toLowerCase()` (character-list implementation of
`String.toLower`, which the kernel can evaluate). -/
def strToLower (msg : String) : String :=
  String.mk (msg.toList.map Char.toLower)

/-- Transcription of `friendlyMathError` (EquationEditor.tsx lines 91-108),
applied to the message of the caught error: reclassifies the underlying
engine failure by substring matching on the lowercased message.  The JS
final line `msg || "Could not evaluate …"` returns the fallback exactly
when `msg` is the empty string (the only falsy string). -/
def friendlyMathError (msg : String) : String :=
  let lower := strToLower msg
  if strIncludes lower "undefined function" || strIncludes lower "is not a function" then
    "Invalid function name. Check function spelling like sin, cos, log, sqrt."
  else if strIncludes lower "undefined symbol" || strIncludes lower "undefined variable" then
    "Missing variable value. Define all variables before evaluating."
  else if strIncludes lower "parenthesis" || strIncludes lower "unexpected end of expression"
      || strIncludes lower "unexpected part" then
    "Invalid expression syntax. Check parentheses and operators."
  else if strIncludes lower "division by zero" || strIncludes lower "infinity"
      || strIncludes lower "cannot divide" then
    "Division by zero is not allowed in this expression."
  else if msg = "" then "Could not evaluate expression. Please check your math input."
  else msg

/-- JavaScript `s.trim()` (character-list implementation, which the kernel
can evaluate; JS trims Unicode whitespace, `Char.isWhitespace` covers the
whitespace characters that occur in this kernel). -/
def trimStr (s : String) : String :=
  String.mk (((s.toList.dropWhile Char.isWhitespace).reverse.dropWhile
    Char.isWhitespace).reverse)

/-- The Unicode-operator normalization of `evaluateExpression`: the three
global single-character replacements ×→*, ÷→/, −→- followed by `trim`. -/
def cleanExpr (expr : String) : String :=
  trimStr (String.mk (expr.toList.map fun c =>
    if c = '×' then '*' else if c = '÷' then '/' else if c = '−' then '-' else c))

/-- Transcription of `evaluateExpression` (EquationEditor.tsx lines
111-129).  The empty-input throw sits outside the try/catch, so its
message is not reclassified; everything thrown inside the try block —
including the locally thrown `Error("Division by zero")` for a non-finite
numeric result — is caught and rethrown as `friendlyMathError`. -/
def evaluateExpression (ev : MathEngine) (expr : String) (scope : Scope) :
    Except String MathVal :=
  let cleaned := cleanExpr expr
  if cleaned = "" then .error "Please enter an expression."
  else
    match ev cleaned scope with
    | .ok v =>
        match v with
        | .num j => if ¬ j.isFinite then .error (friendlyMathError "Division by zero") else .ok v
        | .other c => .ok (.other c)
    | .error e => .error (friendlyMathError e)

theorem friendlyMathError_divzero :
    friendlyMathError "Division by zero" =
      "Division by zero is not allowed in this expression." := by
  decide

/-- C6: `evaluateExpression` never returns a non-finite number: every
numeric result it returns is finite, and whenever the underlying engine
evaluation yields a non-finite number (as for the input "5/0"), the call
fails with the division-by-zero-classified error message rather than
returning the raw infinity value. -/
theorem evaluateExpression_never_nonfinite (ev : MathEngine) (expr : String)
    (scope : Scope) :
    (∀ j, evaluateExpression ev expr scope = .ok (.num j) → j.isFinite = true) ∧
    (cleanExpr expr ≠ "" →
      ∀ j, ev (cleanExpr expr) scope = .ok (.num j) → j.isFinite = false →
        evaluateExpression ev expr scope =
          .error "Division by zero is not allowed in this expression.") := by
  constructor
  · intro j hok
    unfold evaluateExpression at hok
    by_cases hc : cleanExpr expr = ""
    · rw [if_pos hc] at hok
      exact absurd hok (by simp)
    · rw [if_neg hc] at hok
      cases hev : ev (cleanExpr expr) scope with
      | ok v =>
        rw [hev] at hok
        cases v with
        | num j' =>
          by_cases hf : j'.isFinite = true
          · simp [hf] at hok
            rw [← hok]
            exact hf
          · simp [hf] at hok
        | other c => simp at hok
      | error e =>
        rw [hev] at hok
        exact absurd hok (by simp)
  · intro hc j hev hf
    unfold evaluateExpression
    rw [if_neg hc, hev]
    simp [hf, friendlyMathError_divzero]

/-- A concrete engine behavior realizing what mathjs does on the cleaned
input "5/0": it evaluates to the raw JS Infinity. -/
def divZeroEngine : MathEngine :=
  fun s _ => if s = "5/0" then .ok (.num .inf) else .error "Undefined symbol"

theorem evaluateExpression_never_nonfinite_witness :
    (cleanExpr "5/0" ≠ "" ∧
      divZeroEngine (cleanExpr "5/0") emptyScope = .ok (.num .inf) ∧
      JsNum.inf.isFinite = false) ∧
    evaluateExpression divZeroEngine "5/0" emptyScope =
      .error "Division by zero is not allowed in this expression." :=
  ⟨⟨by decide, rfl, rfl⟩,
    (evaluateExpression_never_nonfinite divZeroEngine "5/0" emptyScope).2
      (by decide) .inf rfl rfl⟩

/-- Transcription of `numericDerivative` (EquationEditor.tsx lines 136-142):
the two samples are `Number(evaluateExpression(expr, {x: x ± h}))`, the
central difference `(f1 - f0) / (2 * h)` is formed with JS arithmetic, and
a non-finite result is rejected.  The TS declaration defaults `h` to 1e-5
(`numericDerivativeDefault` below). -/
def numericDerivative (ev : MathEngine) (expr : String) (x h : ℚ) :
    Except String JsNum := do
  let f1 := MathVal.toNumber (← evaluateExpression ev expr (xScope (.fin (x + h))))
  let f0 := MathVal.toNumber (← evaluateExpression ev expr (xScope (.fin (x - h))))
  let out := (f1.sub f0).div ((JsNum.fin 2).mul (.fin h))
  if out.isFinite then pure out
  else .error "Derivative is undefined at this point."

/-- `numericDerivative` with the default step h = 1e-5. -/
def numericDerivativeDefault (ev : MathEngine) (expr : String) (x : ℚ) :
    Except String JsNum :=
  numericDerivative ev expr x (1 / 100000)

/-- The interior sample indices `i = 1, …, N-1` of the Simpson loop
(`for (let i = 1; i < N; i++)`); empty when `N ≤ 1`. -/
def interiorIdx (N : ℤ) : List ℤ :=
  (List.range (N - 1).toNat).map (fun i => (i : ℤ) + 1)

/-- The body of the Simpson loop (EquationEditor.tsx lines 150-155): one
interior sample `fx = Number(evaluateExpression(expr, {x: a + i*h}))`,
rejected when non-finite, otherwise added to the running sum with weight 4
(odd index) or 2 (even index). -/
def integStep (ev : MathEngine) (expr : String) (a : ℚ) (h : JsNum)
    (s : JsNum) (i : ℤ) : Except String JsNum := do
  let x := (JsNum.fin a).add ((JsNum.fin (i : ℚ)).mul h)
  let fx := MathVal.toNumber (← evaluateExpression ev expr (xScope x))
  if fx.isFinite then
    pure (s.add ((JsNum.fin (if i % 2 = 0 then 2 else 4)).mul fx))
  else .error "Integral failed because function is undefined on part of the interval."

/-- Transcription of `numericIntegral` (EquationEditor.tsx lines 145-157):
`N` is `n` made even by incrementing an odd `n`, `h = (b-a)/N` (JS
division, so non-finite when `N = 0`), the sum starts from the two
unchecked endpoint samples and accumulates the checked interior samples,
and the result is `(h/3) * sum`.  The TS declaration defaults `n` to 200
(`numericIntegralDefault` below). -/
def numericIntegral (ev : MathEngine) (expr : String) (a b : ℚ) (n : ℤ) :
    Except String JsNum := do
  let N : ℤ := if n % 2 = 0 then n else n + 1
  let h : JsNum := (JsNum.fin (b - a)).div (.fin (N : ℚ))
  let fa := MathVal.toNumber (← evaluateExpression ev expr (xScope (.fin a)))
  let fb := MathVal.toNumber (← evaluateExpression ev expr (xScope (.fin b)))
  let sum ← (interiorIdx N).foldlM (integStep ev expr a h) (fa.add fb)
  pure ((h.div (.fin 3)).mul sum)

/-- `numericIntegral` with the default subinterval count n = 200. -/
def numericIntegralDefault (ev : MathEngine) (expr : String) (a b : ℚ) :
    Except String JsNum :=
  numericIntegral ev expr a b 200

theorem JsNum.isFinite_iff_fin (v : JsNum) : v.isFinite = true ↔ ∃ q, v = .fin q := by
  cases v <;> simp [JsNum.isFinite]

theorem exceptOkBind {ε α β : Type} (a : α) (f : α → Except ε β) :
    (Except.ok a >>= f : Except ε β) = f a := rfl

theorem exceptErrorBind {ε α β : Type} (e : ε) (f : α → Except ε β) :
    (Except.error e >>= f : Except ε β) = Except.error e := rfl

theorem exceptPure {ε α : Type} (a : α) : (pure a : Except ε α) = Except.ok a := rfl

theorem exceptMapOk {ε α β : Type} (f : α → β) (a : α) :
    (f <$> (Except.ok a : Except ε α)) = Except.ok (f a) := rfl

/-- C2: for finite samples `v1 = f(x+h)` and `v0 = f(x-h)`, the derivative
call returns exactly the central difference `(v1 - v0) / (2h)` when that
value is finite (equivalently, when `h ≠ 0`), and fails with the
undefined-derivative error when it is non-finite (`h = 0`); in general any
value it returns is finite, and the default step is h = 1e-5. -/
theorem numericDerivative_centralDiff (ev : MathEngine) (expr : String)
    (x h v1 v0 : ℚ)
    (h1 : evaluateExpression ev expr (xScope (.fin (x + h))) = .ok (.num (.fin v1)))
    (h0 : evaluateExpression ev expr (xScope (.fin (x - h))) = .ok (.num (.fin v0))) :
    (h ≠ 0 → numericDerivative ev expr x h = .ok (.fin ((v1 - v0) / (2 * h)))) ∧
    (h = 0 →
      numericDerivative ev expr x h = .error "Derivative is undefined at this point.") ∧
    (∀ (ev' : MathEngine) (expr' : String) (x' h' : ℚ) (v : JsNum),
      numericDerivative ev' expr' x' h' = .ok v → v.isFinite = true) ∧
    (∀ (ev' : MathEngine) (expr' : String) (x' : ℚ),
      numericDerivativeDefault ev' expr' x' = numericDerivative ev' expr' x' (1 / 100000)) := by
  refine ⟨?_, ?_, ?_, fun _ _ _ => rfl⟩
  · intro hne
    have h2 : (2 : ℚ) * h ≠ 0 := mul_ne_zero two_ne_zero hne
    simp [numericDerivative, h1, h0, exceptOkBind, exceptPure, MathVal.toNumber,
      JsNum.sub, JsNum.mul, JsNum.div, h2, JsNum.isFinite]
  · intro hz
    subst hz
    rw [add_zero] at h1
    rw [sub_zero] at h0
    have h2 : (2 : ℚ) * 0 = 0 := by ring
    rcases lt_trichotomy (v1 - v0) 0 with hlt | heq | hgt
    · simp [numericDerivative, h1, h0, exceptOkBind, MathVal.toNumber, JsNum.sub,
        JsNum.mul, JsNum.div, h2, hlt, hlt.not_lt, JsNum.isFinite]
    · simp [numericDerivative, h1, h0, exceptOkBind, MathVal.toNumber, JsNum.sub,
        JsNum.mul, JsNum.div, h2, heq, JsNum.isFinite]
    · simp [numericDerivative, h1, h0, exceptOkBind, MathVal.toNumber, JsNum.sub,
        JsNum.mul, JsNum.div, h2, hgt, hgt.not_lt, JsNum.isFinite]
  · intro ev' expr' x' h' v hok
    unfold numericDerivative at hok
    cases he1 : evaluateExpression ev' expr' (xScope (.fin (x' + h'))) with
    | error e =>
      rw [he1] at hok
      rw [exceptErrorBind] at hok
      exact absurd hok (by simp)
    | ok w1 =>
      cases he0 : evaluateExpression ev' expr' (xScope (.fin (x' - h'))) with
      | error e =>
        rw [he1, he0] at hok
        rw [exceptOkBind, exceptErrorBind] at hok
        exact absurd hok (by simp)
      | ok w0 =>
        rw [he1, he0] at hok
        rw [exceptOkBind, exceptOkBind] at hok
        by_cases hfin : ((w1.toNumber.sub w0.toNumber).div
            ((JsNum.fin 2).mul (.fin h'))).isFinite = true
        · rw [if_pos hfin, exceptPure] at hok
          cases hok
          exact hfin
        · rw [if_neg hfin] at hok
          exact absurd hok (by simp)

/-- A concrete engine behavior realizing what mathjs does on the cleaned
input "x^2": it squares the scope value of x. -/
def squareEngine : MathEngine :=
  fun _ sc =>
    match sc "x" with
    | some (.fin q) => .ok (.num (.fin (q * q)))
    | _ => .error "Undefined symbol x"

theorem numericDerivative_centralDiff_witness :
    (evaluateExpression squareEngine "x^2" (xScope (.fin ((3 : ℚ) + 1))) =
        .ok (.num (.fin 16)) ∧
      evaluateExpression squareEngine "x^2" (xScope (.fin ((3 : ℚ) - 1))) =
        .ok (.num (.fin 4)) ∧
      (1 : ℚ) ≠ 0) ∧
    numericDerivative squareEngine "x^2" 3 1 = .ok (.fin ((16 - 4) / (2 * 1))) := by
  have hclean : cleanExpr "x^2" = "x^2" := by decide
  have hne : cleanExpr "x^2" ≠ "" := by decide
  have h1 : evaluateExpression squareEngine "x^2" (xScope (.fin ((3 : ℚ) + 1))) =
      .ok (.num (.fin 16)) := by
    have hv : ((3 : ℚ) + 1) * ((3 : ℚ) + 1) = 16 := by norm_num
    simp [evaluateExpression, hclean, hne, squareEngine, xScope, hv, JsNum.isFinite]
  have h0 : evaluateExpression squareEngine "x^2" (xScope (.fin ((3 : ℚ) - 1))) =
      .ok (.num (.fin 4)) := by
    have hv : ((3 : ℚ) - 1) * ((3 : ℚ) - 1) = 4 := by norm_num
    simp [evaluateExpression, hclean, hne, squareEngine, xScope, hv, JsNum.isFinite]
  exact ⟨⟨h1, h0, one_ne_zero⟩,
    (numericDerivative_centralDiff squareEngine "x^2" 3 1 16 4 h1 h0).1 one_ne_zero⟩

theorem JsNum.fin_add (p q : ℚ) : (JsNum.fin p).add (.fin q) = .fin (p + q) := rfl

theorem JsNum.fin_mul (p q : ℚ) : (JsNum.fin p).mul (.fin q) = .fin (p * q) := rfl

theorem JsNum.fin_div (p q : ℚ) (h : q ≠ 0) :
    (JsNum.fin p).div (.fin q) = .fin (p / q) := by
  simp [JsNum.div, h]

/-- When every sample of the expression evaluates to the finite value
given by `g`, the Simpson interior loop accumulates the weighted sample
sum (weight 2 at even indices, 4 at odd indices) on top of the initial
accumulator. -/
theorem integStep_foldlM (ev : MathEngine) (expr : String) (g : JsNum → ℚ)
    (hf : ∀ x, evaluateExpression ev expr (xScope x) = .ok (.num (.fin (g x))))
    (a hq : ℚ) :
    ∀ (l : List ℤ) (s0 : ℚ),
      l.foldlM (integStep ev expr a (.fin hq)) (JsNum.fin s0) =
        .ok (.fin (s0 + (l.map fun (i : ℤ) =>
          (if i % 2 = 0 then (2 : ℚ) else 4) * g (.fin (a + (i : ℚ) * hq))).sum)) := by
  intro l
  induction l with
  | nil => intro s0; simp [exceptPure]
  | cons i t ih =>
    intro s0
    rw [List.foldlM_cons]
    have hstep : integStep ev expr a (.fin hq) (JsNum.fin s0) i =
        .ok (.fin (s0 + (if i % 2 = 0 then (2 : ℚ) else 4) *
          g (.fin (a + (i : ℚ) * hq)))) := by
      by_cases hp : i % 2 = 0
      · simp [integStep, JsNum.add, JsNum.mul, hf, exceptOkBind, exceptPure,
          MathVal.toNumber, JsNum.isFinite, hp]
      · simp [integStep, JsNum.add, JsNum.mul, hf, exceptOkBind, exceptPure,
          MathVal.toNumber, JsNum.isFinite, hp]
    rw [hstep, exceptOkBind, ih, List.map_cons, List.sum_cons]
    congr 2
    ring

/-- Splitting a mapped sum along a Boolean predicate on the elements. -/
theorem sum_map_filter_split (t : ℤ → ℚ) (p : ℤ → Bool) (l : List ℤ) :
    ((l.filter p).map t).sum + ((l.filter fun i => ! p i).map t).sum =
      (l.map t).sum := by
  induction l with
  | nil => simp
  | cons i tl ih =>
    by_cases hp : p i = true
    · simp [List.filter_cons, hp]
      rw [← ih]
      ring
    · have hp' : p i = false := by simpa using hp
      simp [List.filter_cons, hp']
      rw [← ih]
      ring

/-- C1: when the expression evaluates to the finite value `g x` at every
sample point `x` and the subinterval count `n` is positive, the integral
call returns exactly the composite Simpson value: with `N` equal to `n`
made even by incrementing an odd `n` and `h = (b-a)/N`, the result is
`(h/3) * (f(a) + f(b) + Σ 4·f(a+i·h) over odd interior i + Σ 2·f(a+i·h)
over even interior i)`; moreover the default subinterval count is 200. -/
theorem numericIntegral_simpson (ev : MathEngine) (expr : String) (g : JsNum → ℚ)
    (hf : ∀ x, evaluateExpression ev expr (xScope x) = .ok (.num (.fin (g x))))
    (a b : ℚ) (n N : ℤ) (hN : N = if n % 2 = 0 then n else n + 1)
    (hq : ℚ) (hh : hq = (b - a) / (N : ℚ)) (hn : 0 < n) :
    numericIntegral ev expr a b n =
      .ok (.fin ((hq / 3) * (g (.fin a) + g (.fin b)
        + (((interiorIdx N).filter fun (i : ℤ) => ¬ i % 2 = 0).map fun (i : ℤ) =>
            4 * g (.fin (a + (i : ℚ) * hq))).sum
        + (((interiorIdx N).filter fun (i : ℤ) => i % 2 = 0).map fun (i : ℤ) =>
            2 * g (.fin (a + (i : ℚ) * hq))).sum)))
    ∧ ∀ (ev' : MathEngine) (expr' : String) (a' b' : ℚ),
        numericIntegralDefault ev' expr' a' b' = numericIntegral ev' expr' a' b' 200 := by
  refine ⟨?_, fun _ _ _ _ => rfl⟩
  have hNpos : (0 : ℤ) < N := by
    rw [hN]; by_cases hp : n % 2 = 0 <;> simp [hp] <;> omega
  have hNne : (N : ℚ) ≠ 0 := by
    exact_mod_cast hNpos.ne'
  simp only [numericIntegral, ← hN]
  rw [JsNum.fin_div (b - a) (N : ℚ) hNne, ← hh]
  simp only [hf, exceptOkBind, MathVal.toNumber, JsNum.fin_add]
  rw [integStep_foldlM ev expr g hf a hq (interiorIdx N) (g (.fin a) + g (.fin b)),
    exceptOkBind, JsNum.fin_div hq 3 (by norm_num), JsNum.fin_mul, exceptPure]
  congr 2
  rw [← sum_map_filter_split
    (fun (i : ℤ) => (if i % 2 = 0 then (2 : ℚ) else 4) * g (.fin (a + (i : ℚ) * hq)))
    (fun (i : ℤ) => decide (i % 2 = 0)) (interiorIdx N)]
  have hmap2 : ((interiorIdx N).filter fun (i : ℤ) => decide (i % 2 = 0)).map
        (fun (i : ℤ) => (if i % 2 = 0 then (2 : ℚ) else 4) * g (.fin (a + (i : ℚ) * hq))) =
      ((interiorIdx N).filter fun (i : ℤ) => decide (i % 2 = 0)).map
        (fun (i : ℤ) => 2 * g (.fin (a + (i : ℚ) * hq))) := by
    apply List.map_congr_left
    intro i hi
    have hp := (List.mem_filter.mp hi).2
    simp only [decide_eq_true_eq] at hp
    simp [hp]
  have hmap4 : ((interiorIdx N).filter fun (i : ℤ) => ! decide (i % 2 = 0)).map
        (fun (i : ℤ) => (if i % 2 = 0 then (2 : ℚ) else 4) * g (.fin (a + (i : ℚ) * hq))) =
      ((interiorIdx N).filter fun (i : ℤ) => ! decide (i % 2 = 0)).map
        (fun (i : ℤ) => 4 * g (.fin (a + (i : ℚ) * hq))) := by
    apply List.map_congr_left
    intro i hi
    have hp := (List.mem_filter.mp hi).2
    simp only [Bool.not_eq_true', decide_eq_false_iff_not] at hp
    simp [hp]
  rw [hmap2, hmap4]
  have hfilt : ((interiorIdx N).filter fun (i : ℤ) => ¬ i % 2 = 0) =
      ((interiorIdx N).filter fun (i : ℤ) => ! decide (i % 2 = 0)) := by
    simp only [decide_not]
  rw [hfilt]
  ring

instance {ε α : Type} [DecidableEq ε] [DecidableEq α] : DecidableEq (Except ε α) :=
  fun x y =>
    match x, y with
    | .ok a, .ok b => if h : a = b then .isTrue (by rw [h]) else .isFalse (by simp [h])
    | .error e, .error f => if h : e = f then .isTrue (by rw [h]) else .isFalse (by simp [h])
    | .ok _, .error _ => .isFalse (by simp)
    | .error _, .ok _ => .isFalse (by simp)

/-- A concrete engine behavior: every evaluation yields the constant 1, as
mathjs does for the input "1". -/
def oneEngine : MathEngine := fun _ _ => .ok (.num (.fin 1))

theorem numericIntegral_simpson_witness :
    ((∀ x, evaluateExpression oneEngine "1" (xScope x) =
        .ok (.num (.fin ((fun (_ : JsNum) => (1 : ℚ)) x)))) ∧
      ((2 : ℤ) = if (2 : ℤ) % 2 = 0 then 2 else 2 + 1) ∧
      ((5 : ℚ) / 2 = ((5 : ℚ) - 0) / (((2 : ℤ) : ℚ))) ∧ (0 : ℤ) < 2) ∧
    numericIntegral oneEngine "1" 0 5 2 = .ok (.fin 5) := by
  have hf : ∀ x, evaluateExpression oneEngine "1" (xScope x) =
      .ok (.num (.fin ((fun (_ : JsNum) => (1 : ℚ)) x))) := fun _ => rfl
  refine ⟨⟨hf, by decide, by norm_num, by decide⟩, ?_⟩
  have h := (numericIntegral_simpson oneEngine "1" (fun _ => (1 : ℚ)) hf 0 5 2 2
    (by decide) ((5 : ℚ) / 2) (by norm_num) (by decide)).1
  have hidx : interiorIdx 2 = [1] := by decide
  rw [h, hidx]
  norm_num [List.filter]

/-- Any step of a successful `foldlM` run returned `ok` on some
accumulator. -/
theorem foldlM_ok_steps {α β : Type} (f : β → α → Except String β) :
    ∀ (l : List α) (s r : β), l.foldlM f s = .ok r →
      ∀ x ∈ l, ∃ s' r', f s' x = .ok r' := by
  intro l
  induction l with
  | nil => intro s r h x hx; cases hx
  | cons y t ih =>
    intro s r h x hx
    rw [List.foldlM_cons] at h
    cases hst : f s y with
    | error e =>
      rw [hst, exceptErrorBind] at h
      exact absurd h (by simp)
    | ok s1 =>
      rw [hst, exceptOkBind] at h
      rcases List.mem_cons.mp hx with rfl | hxt
      · exact ⟨s, s1, hst⟩
      · exact ih s1 r h x hxt

/-- A successful Simpson loop step means the sample at its index evaluated
successfully to a finite number. -/
theorem integStep_ok_sample (ev : MathEngine) (expr : String) (a : ℚ)
    (h s r : JsNum) (i : ℤ)
    (hok : integStep ev expr a h s i = .ok r) :
    ∃ w, evaluateExpression ev expr
        (xScope ((JsNum.fin a).add ((JsNum.fin (i : ℚ)).mul h))) = .ok w ∧
      (MathVal.toNumber w).isFinite = true := by
  simp only [integStep] at hok
  cases he : evaluateExpression ev expr
      (xScope ((JsNum.fin a).add ((JsNum.fin (i : ℚ)).mul h))) with
  | error e =>
    rw [he, exceptErrorBind] at hok
    exact absurd hok (by simp)
  | ok w =>
    rw [he, exceptOkBind] at hok
    by_cases hfin : (MathVal.toNumber w).isFinite = true
    · exact ⟨w, rfl, hfin⟩
    · rw [if_neg hfin] at hok
      exact absurd hok (by simp)

/-- A successful Simpson loop run started from a finite accumulator ends
in a finite accumulator. -/
theorem integStep_fold_finite (ev : MathEngine) (expr : String) (a : ℚ)
    (h : JsNum) :
    ∀ (l : List ℤ) (s : ℚ) (r : JsNum),
      l.foldlM (integStep ev expr a h) (JsNum.fin s) = .ok r →
      ∃ q, r = .fin q := by
  intro l
  induction l with
  | nil =>
    intro s r hr
    rw [List.foldlM_nil] at hr
    rw [exceptPure] at hr
    exact ⟨s, by cases hr; rfl⟩
  | cons y t ih =>
    intro s r hr
    rw [List.foldlM_cons] at hr
    cases hst : integStep ev expr a h (JsNum.fin s) y with
    | error e =>
      rw [hst, exceptErrorBind] at hr
      exact absurd hr (by simp)
    | ok s1 =>
      rw [hst, exceptOkBind] at hr
      simp only [integStep] at hst
      cases he : evaluateExpression ev expr
          (xScope ((JsNum.fin a).add ((JsNum.fin (y : ℚ)).mul h))) with
      | error e =>
        rw [he, exceptErrorBind] at hst
        exact absurd hst (by simp)
      | ok w =>
        rw [he, exceptOkBind] at hst
        by_cases hfin : (MathVal.toNumber w).isFinite = true
        · rw [if_pos hfin, exceptPure] at hst
          rcases (JsNum.isFinite_iff_fin _).mp hfin with ⟨p, hp⟩
          have hs1 : s1 = .fin (s + (if y % 2 = 0 then (2 : ℚ) else 4) * p) := by
            cases hst
            rw [hp, JsNum.fin_mul, JsNum.fin_add]
          rw [hs1] at hr
          exact ih _ r hr
        · rw [if_neg hfin] at hst
          exact absurd hst (by simp)

/-- C5 (amended): a value returned by `numericIntegral` means every
interior sample evaluated successfully to a finite number (so the call
fails whenever an interior sample is non-finite), and — provided both
endpoint samples also evaluate to finite numbers and `n` is positive —
any returned value is finite.  (The unconditional claim is false: the two
endpoint samples are never checked, see the counterexample.) -/
theorem numericIntegral_fails_on_nonfinite_interior (ev : MathEngine)
    (expr : String) (a b : ℚ) (n : ℤ) :
    (∀ v, numericIntegral ev expr a b n = .ok v →
      ∀ i ∈ interiorIdx (if n % 2 = 0 then n else n + 1),
        ∃ w, evaluateExpression ev expr (xScope ((JsNum.fin a).add
            ((JsNum.fin (i : ℚ)).mul ((JsNum.fin (b - a)).div
              (.fin (((if n % 2 = 0 then n else n + 1) : ℤ) : ℚ)))))) = .ok w ∧
          (MathVal.toNumber w).isFinite = true) ∧
    (0 < n → ∀ va vb,
      evaluateExpression ev expr (xScope (.fin a)) = .ok va →
      (MathVal.toNumber va).isFinite = true →
      evaluateExpression ev expr (xScope (.fin b)) = .ok vb →
      (MathVal.toNumber vb).isFinite = true →
      ∀ v, numericIntegral ev expr a b n = .ok v → v.isFinite = true) := by
  constructor
  · intro v hok i hi
    simp only [numericIntegral] at hok
    cases hea : evaluateExpression ev expr (xScope (.fin a)) with
    | error e =>
      rw [hea, exceptErrorBind] at hok
      exact absurd hok (by simp)
    | ok wa =>
      rw [hea, exceptOkBind] at hok
      cases heb : evaluateExpression ev expr (xScope (.fin b)) with
      | error e =>
        rw [heb, exceptErrorBind] at hok
        exact absurd hok (by simp)
      | ok wb =>
        rw [heb, exceptOkBind] at hok
        cases hfold : (interiorIdx (if n % 2 = 0 then n else n + 1)).foldlM
            (integStep ev expr a ((JsNum.fin (b - a)).div
              (.fin (((if n % 2 = 0 then n else n + 1) : ℤ) : ℚ))))
            ((MathVal.toNumber wa).add (MathVal.toNumber wb)) with
        | error e =>
          rw [hfold, exceptErrorBind] at hok
          exact absurd hok (by simp)
        | ok sum =>
          obtain ⟨s', r', hs⟩ := foldlM_ok_steps _ _ _ _ hfold i hi
          exact integStep_ok_sample ev expr a _ s' r' i hs
  · intro hn va vb hva hfva hvb hfvb v hok
    have hN : (0 : ℤ) < (if n % 2 = 0 then n else n + 1) := by
      split_ifs <;> omega
    have hNne : (((if n % 2 = 0 then n else n + 1) : ℤ) : ℚ) ≠ 0 := by
      exact_mod_cast hN.ne'
    simp only [numericIntegral] at hok
    rw [hva, exceptOkBind, hvb, exceptOkBind] at hok
    rcases (JsNum.isFinite_iff_fin _).mp hfva with ⟨qa, hqa⟩
    rcases (JsNum.isFinite_iff_fin _).mp hfvb with ⟨qb, hqb⟩
    rw [hqa, hqb, JsNum.fin_add] at hok
    cases hfold : (interiorIdx (if n % 2 = 0 then n else n + 1)).foldlM
        (integStep ev expr a ((JsNum.fin (b - a)).div
          (.fin (((if n % 2 = 0 then n else n + 1) : ℤ) : ℚ))))
        (JsNum.fin (qa + qb)) with
    | error e =>
      rw [hfold, exceptErrorBind] at hok
      exact absurd hok (by simp)
    | ok sum =>
      rw [hfold, exceptOkBind] at hok
      rcases integStep_fold_finite ev expr a _ _ _ _ hfold with ⟨qs, hqs⟩
      rw [hqs, JsNum.fin_div _ _ hNne,
        JsNum.fin_div _ _ (by norm_num : (3 : ℚ) ≠ 0), JsNum.fin_mul,
        exceptPure] at hok
      cases hok
      rfl

/-- A concrete engine behavior under which the sample at x = 0 is a
non-number mathjs value (such as the complex number that mathjs returns
for a square root of a negative input) whose `Number(-)` coercion is NaN,
while every other sample is the finite number 1. -/
def endpointNaNEngine : MathEngine :=
  fun _ sc =>
    if sc "x" = some (.fin 0) then .ok (.other .nan) else .ok (.num (.fin 1))

/-- C5 counterexample: the claim that `numericIntegral` either fails or
returns a finite number is false as stated — with the engine above (a
non-finite value at the left endpoint only), the call over [0, 2] with
n = 2 returns NaN. -/
theorem numericIntegral_nonfinite_counterexample :
    numericIntegral endpointNaNEngine "sqrt(x)" 0 2 2 = .ok .nan ∧
    JsNum.nan.isFinite = false := by
  refine ⟨?_, rfl⟩
  have hclean : cleanExpr "sqrt(x)" = "sqrt(x)" := by decide
  have hne : cleanExpr "sqrt(x)" ≠ "" := by decide
  have hid : interiorIdx 2 = [1] := by decide
  have heval : ∀ x : JsNum, evaluateExpression endpointNaNEngine "sqrt(x)" (xScope x) =
      if x = .fin 0 then .ok (.other .nan) else .ok (.num (.fin 1)) := by
    intro x
    by_cases hx : x = .fin 0
    · simp [evaluateExpression, hne, endpointNaNEngine, xScope, hx]
    · simp [evaluateExpression, hne, endpointNaNEngine, xScope, hx, JsNum.isFinite]
  simp only [numericIntegral, heval, JsNum.fin_mul, JsNum.fin_add]
  norm_num [MathVal.toNumber, JsNum.add, exceptOkBind]
  have hdiv : (JsNum.fin (2 : ℚ)).div (.fin 2) = .fin 1 := by
    rw [JsNum.fin_div _ _ (by norm_num)]
    norm_num
  have hstep : integStep endpointNaNEngine "sqrt(x)" 0 (JsNum.fin 1) JsNum.nan 1 =
      .ok JsNum.nan := by
    simp only [integStep, JsNum.fin_mul, JsNum.fin_add, heval]
    norm_num [MathVal.toNumber, JsNum.isFinite, JsNum.add, JsNum.mul,
      exceptOkBind, exceptPure]
  rw [hdiv, hid, List.foldlM_cons, hstep, exceptOkBind, List.foldlM_nil,
    exceptPure, exceptMapOk]
  rfl

/-- Direct evaluation of the all-ones integral used by the witness. -/
theorem oneEngine_integral : numericIntegral oneEngine "1" 0 5 2 = .ok (.fin 5) := by
  have hid : interiorIdx 2 = [1] := by decide
  have heval : ∀ s, evaluateExpression oneEngine "1" s = .ok (.num (.fin 1)) :=
    fun _ => rfl
  simp only [numericIntegral, heval, MathVal.toNumber, JsNum.fin_add]
  norm_num [exceptOkBind]
  have hdiv : (JsNum.fin (5 : ℚ)).div (.fin 2) = .fin (5 / 2) := by
    rw [JsNum.fin_div _ _ (by norm_num)]
  have hstep : integStep oneEngine "1" 0 (JsNum.fin (5 / 2)) (JsNum.fin 2) 1 =
      .ok (.fin 6) := by
    simp only [integStep, JsNum.fin_mul, JsNum.fin_add, heval]
    norm_num [MathVal.toNumber, JsNum.isFinite, JsNum.fin_mul, JsNum.fin_add,
      exceptOkBind, exceptPure]
  have hinit : (JsNum.fin (1 : ℚ)).add (.fin 1) = .fin 2 := by
    rw [JsNum.fin_add]
    norm_num
  rw [hdiv, hinit, hid, List.foldlM_cons, hstep, exceptOkBind, List.foldlM_nil,
    exceptPure, exceptMapOk, JsNum.fin_div _ _ (by norm_num : (3 : ℚ) ≠ 0),
    JsNum.fin_mul]
  norm_num

theorem numericIntegral_fails_witness :
    ((0 : ℤ) < 2 ∧
      evaluateExpression oneEngine "1" (xScope (.fin 0)) = .ok (.num (.fin 1)) ∧
      evaluateExpression oneEngine "1" (xScope (.fin 5)) = .ok (.num (.fin 1)) ∧
      (MathVal.toNumber (.num (.fin 1))).isFinite = true ∧
      numericIntegral oneEngine "1" 0 5 2 = .ok (.fin 5)) ∧
    (JsNum.fin 5).isFinite = true := by
  refine ⟨⟨by decide, rfl, rfl, rfl, oneEngine_integral⟩, ?_⟩
  exact (numericIntegral_fails_on_nonfinite_interior oneEngine "1" 0 5 2).2
    (by decide) (.num (.fin 1)) (.num (.fin 1)) rfl rfl rfl rfl (.fin 5)
    oneEngine_integral

/-- Split a character list at every separator character, JavaScript
`String.prototype.split` style: `"a;b" → ["a","b"]`, `"" → [""]`,
`";" → ["",""]`. -/
def splitOnPred (p : Char → Bool) : List Char → List (List Char)
  | [] => [[]]
  | c :: rest =>
    let r := splitOnPred p rest
    if p c then [] :: r
    else
      match r with
      | [] => [[c]]
      | g :: gs => (c :: g) :: gs

/-- The row splitting of `parseMatrix`:
`text.trim().split(/\n|;/).map(r => r.trim()).filter(Boolean)` (a string is
truthy exactly when nonempty). -/
def rowsOf (text : String) : List String :=
  (((splitOnPred (fun c => c = '\n' || c = ';') (trimStr text).toList).map
    (fun l => trimStr (String.mk l))).filter (fun r => r ≠ ""))

/-- The cell splitting of one row:
`r.split(/\s+|,/).map(c => c.trim()).filter(Boolean)`.  Splitting on the
regex `\s+|,` (a whitespace run or one comma) and then dropping empty
pieces produces exactly the maximal runs of non-whitespace non-comma
characters, which is what splitting at every single whitespace/comma
character and dropping empty pieces produces as well. -/
def cellsOf (r : String) : List String :=
  (((splitOnPred (fun c => c.isWhitespace || c = ',') r.toList).map
    (fun l => trimStr (String.mk l))).filter (fun c => c ≠ ""))

/-- Numeric value of a digit list, most significant first. -/
def digitsVal (l : List Char) : ℕ :=
  l.foldl (fun a c => 10 * a + (c.toNat - '0'.toNat)) 0

/-- Strip an optional leading sign; `true` means negative. -/
def parseSign : List Char → Bool × List Char
  | '-' :: r => (true, r)
  | '+' :: r => (false, r)
  | l => (false, l)

/-- Exponent continuation of `jsNumber`: an optional sign and a nonempty
digit run that must consume the rest of the cell. -/
def parseExp (v : ℚ) (r : List Char) : Option ℚ :=
  let (eneg, r1) := parseSign r
  let ed := r1.takeWhile Char.isDigit
  let r2 := r1.dropWhile Char.isDigit
  if ed.isEmpty ∨ ¬ r2.isEmpty then none
  else some (if eneg then v / ((10 : ℚ) ^ digitsVal ed) else v * ((10 : ℚ) ^ digitsVal ed))

/-- Model of the JavaScript `Number(-)` coercion composed with the
`Number.isFinite` test, applied to the cell strings produced by `cellsOf`
(nonempty, free of whitespace and commas): `some q` when the cell is a
finite decimal literal — optional sign, digits with an optional fraction
part and an optional decimal exponent — and `none` when `Number(c)` is
NaN or infinite.  (`Number()` also accepts radix-prefixed literals such as
`0x10`; those do not occur in the numeric matrices this kernel handles and
are out of scope of this model.) -/
def jsNumber (s : String) : Option ℚ :=
  let (neg, l1) := parseSign s.toList
  let ip := l1.takeWhile Char.isDigit
  let r1 := l1.dropWhile Char.isDigit
  let fr :=
    match r1 with
    | '.' :: r => (r.takeWhile Char.isDigit, r.dropWhile Char.isDigit)
    | _ => ([], r1)
  if ip.isEmpty && fr.1.isEmpty then none
  else
    let mant : ℚ :=
      if fr.1.isEmpty then (digitsVal ip : ℚ)
      else (digitsVal (ip ++ fr.1) : ℚ) / ((10 : ℚ) ^ fr.1.length)
    let signed : ℚ := if neg then -mant else mant
    match fr.2 with
    | [] => some signed
    | 'e' :: r => parseExp signed r
    | 'E' :: r => parseExp signed r
    | _ => none

/-- Transcription of `parseMatrix` (EquationEditor.tsx lines 161-184):
rows split on newline or semicolon, cells split on whitespace or comma,
every cell coerced with `Number` and rejected when non-finite; then the
result is rejected when the first row is empty or missing
(`matrix[0]?.length ?? 0` equal to 0) or when some row length differs from
the first. -/
def parseMatrix (text : String) : Except String (List (List ℚ)) := do
  let matrix ← (rowsOf text).mapM (fun r =>
    (cellsOf r).mapM (fun c =>
      match jsNumber c with
      | some v => pure v
      | none => Except.error "Matrix contains non-numeric value."))
  let cols := (matrix.headD []).length
  if cols = 0 then Except.error "Empty matrix."
  else if matrix.any (fun r => r.length ≠ cols) then
    Except.error "All rows must have the same number of columns."
  else pure matrix

/-- A successful `mapM` run has one output per input and succeeded on
every element. -/
theorem mapM_ok_props {α β : Type} (f : α → Except String β) :
    ∀ (l : List α) (r : List β), l.mapM f = .ok r →
      r.length = l.length ∧ ∀ x ∈ l, ∃ y, f x = .ok y := by
  intro l
  induction l with
  | nil =>
    intro r h
    rw [List.mapM_nil, exceptPure] at h
    cases h
    exact ⟨rfl, by simp⟩
  | cons a t ih =>
    intro r h
    rw [List.mapM_cons] at h
    cases hfa : f a with
    | error e =>
      rw [hfa, exceptErrorBind] at h
      exact absurd h (by simp)
    | ok b =>
      rw [hfa, exceptOkBind] at h
      cases hft : t.mapM f with
      | error e =>
        rw [hft, exceptErrorBind] at h
        exact absurd h (by simp)
      | ok bs =>
        rw [hft, exceptOkBind, exceptPure] at h
        cases h
        obtain ⟨hlen, hall⟩ := ih bs hft
        refine ⟨by simp [hlen], ?_⟩
        intro x hx
        rcases List.mem_cons.mp hx with rfl | hxt
        · exact ⟨b, hfa⟩
        · exact hall x hxt

/-- C7: `parseMatrix` splits rows on newline/semicolon and cells on
whitespace/comma — `"1 2\n3 4"` parses to `[[1,2],[3,4]]` — and it fails
on the ragged input `"1 2\n3"`, on any input with no rows, and, in
general, a successful parse means the matrix is nonempty with all rows of
equal positive length and every cell numeric (so a non-numeric cell, an
empty matrix, or ragged rows always fail). -/
theorem parseMatrix_spec :
    parseMatrix "1 2\n3 4" = .ok [[1, 2], [3, 4]] ∧
    parseMatrix "1 2\n3" = .error "All rows must have the same number of columns." ∧
    (∀ text, rowsOf text = [] → parseMatrix text = .error "Empty matrix.") ∧
    (∀ text m, parseMatrix text = .ok m →
      m.length = (rowsOf text).length ∧ m ≠ [] ∧
      (∀ row ∈ m, row.length = (m.headD []).length ∧ 0 < row.length) ∧
      (∀ r ∈ rowsOf text, ∀ c ∈ cellsOf r, ∃ q, jsNumber c = some q)) := by
  refine ⟨by decide, by decide, ?_, ?_⟩
  · intro text h
    simp only [parseMatrix, h]
    rw [List.mapM_nil, exceptPure, exceptOkBind]
    rfl
  · intro text m hok
    simp only [parseMatrix] at hok
    cases hm : (rowsOf text).mapM (fun r =>
        (cellsOf r).mapM (fun c =>
          match jsNumber c with
          | some v => pure v
          | none => Except.error "Matrix contains non-numeric value.")) with
    | error e =>
      rw [hm, exceptErrorBind] at hok
      exact absurd hok (by simp)
    | ok mtx =>
      rw [hm, exceptOkBind] at hok
      by_cases hc : (mtx.headD []).length = 0
      · rw [if_pos hc] at hok
        exact absurd hok (by simp)
      · rw [if_neg hc] at hok
        by_cases hr : mtx.any (fun r => r.length ≠ (mtx.headD []).length) = true
        · rw [if_pos hr] at hok
          exact absurd hok (by simp)
        · rw [if_neg hr, exceptPure] at hok
          injection hok with hok'
          subst hok'
          obtain ⟨hlen, hall⟩ := mapM_ok_props _ _ _ hm
          have hrows : ∀ row ∈ mtx, row.length = (mtx.headD []).length := by
            intro row hrow
            by_contra hne
            exact hr (List.any_eq_true.mpr ⟨row, hrow, by simpa using hne⟩)
          refine ⟨hlen, ?_, ?_, ?_⟩
          · intro hnil
            rw [hnil] at hc
            exact hc rfl
          · intro row hrow
            exact ⟨hrows row hrow, by
              rw [hrows row hrow]
              exact Nat.pos_of_ne_zero hc⟩
          · intro r hr c hcmem
            obtain ⟨cells, hcells⟩ := hall r hr
            obtain ⟨_, hcall⟩ := mapM_ok_props _ _ _ hcells
            obtain ⟨q, hq⟩ := hcall c hcmem
            cases hjs : jsNumber c with
            | some v => exact ⟨v, rfl⟩
            | none =>
              rw [hjs] at hq
              exact absurd hq (by simp)

/-- A graph node as kept in the GraphTheoryPage component state. -/
structure Node where
  id : String
deriving DecidableEq, Repr

/-- An undirected link, stored as a source/target id pair. -/
structure Link where
  source : String
  target : String
deriving DecidableEq, Repr

/-- A JS `Map` keyed by node ids, modelled as a function into `Option`
(`none` = key absent). -/
def MapS (α : Type) : Type := String → Option α

/-- `Map.set`. -/
def update {α : Type} (m : MapS α) (k : String) (v : α) : MapS α :=
  fun x => if x = k then some v else m x

/-- `new Map()`. -/
def emptyMap {α : Type} : MapS α := fun _ => none

/-- One link of the adjacency construction (part_004 lines 13-16): push
the target onto the source's neighbor list and the source onto the
target's — via optional chaining (`adj.get(…)?.push(…)`), so an endpoint
that is not a node id is skipped. -/
def adjLinkStep (m : MapS (List String)) (e : Link) : MapS (List String) :=
  let m1 :=
    match m e.source with
    | some l => update m e.source (l ++ [e.target])
    | none => m
  match m1 e.target with
  | some l => update m1 e.target (l ++ [e.source])
  | none => m1

/-- The adjacency map built by `bfsDistances` (part_004 lines 11-16):
every node id is mapped to an empty list, then each link pushes its
endpoints onto each other's neighbor lists. -/
def buildAdj (nodes : List Node) (links : List Link) : MapS (List String) :=
  links.foldl adjLinkStep (nodes.foldl (fun m n => update m n.id []) emptyMap)

/-- The distance map of `bfsDistances`: the stored value is either the
`Infinity` sentinel (`none`, marking "not yet visited") or a finite hop
count. -/
def DistMap : Type := MapS (Option ℕ)

/-- The initial distance map (part_004 lines 18-20): every node id at the
`Infinity` sentinel, then the start id at 0. -/
def initDist (nodes : List Node) (startId : String) : DistMap :=
  update (nodes.foldl (fun m n => update m n.id (none : Option ℕ)) emptyMap)
    startId (some 0)

/-- The BFS work loop (part_004 lines 22-32), with an explicit fuel bound
on the number of dequeues: `none` would mean the fuel ran out with work
remaining.  Each dequeue reads `du = dist.get(u)!` (every enqueued id was
assigned a finite distance before being pushed — the start id on line 20,
every other id on line 28 — so the `Option` fallback 0 is unreachable)
and pushes every neighbor still at the `Infinity` sentinel after setting
its distance to `du + 1`.  `bfsDistances` runs this loop with fuel
`|nodes| + 1`, which is enough for every input because each id is
enqueued at most once (`bfsLoop_isSome` below). -/
def readDist (dist : DistMap) (u : String) : ℕ :=
  match dist u with
  | some (some d) => d
  | _ => 0

/-- The BFS work loop proper; see `readDist` for the dequeue read. -/
def bfsLoop (adj : MapS (List String)) :
    ℕ → List String → DistMap → Option DistMap
  | _, [], dist => some dist
  | 0, _ :: _, _ => none
  | fuel + 1, u :: q, dist =>
    let du : ℕ := readDist dist u
    let st := ((adj u).getD []).foldl
      (fun (p : DistMap × List String) v =>
        if p.1 v = some none then (update p.1 v (some (du + 1)), p.2 ++ [v]) else p)
      (dist, q)
    bfsLoop adj fuel st.2 st.1

/-- Transcription of `bfsDistances` (part_004 lines 10-34). -/
def bfsDistances (nodes : List Node) (links : List Link) (startId : String) :
    DistMap :=
  (bfsLoop (buildAdj nodes links) (nodes.length + 1) [startId]
    (initDist nodes startId)).getD (initDist nodes startId)

/-- Transcription of `distanceMatrix` (part_004 lines 36-46): the matrix
is initialized with the `Infinity` sentinel and then every cell (i, j) is
assigned `dist.get(jId) ?? Infinity` from the BFS run at source i, which
nets out to the nested map below. -/
def distanceMatrix (nodes : List Node) (links : List Link) :
    List String × List (List (Option ℕ)) :=
  let ids := nodes.map Node.id
  (ids, ids.map fun iId =>
    let dist := bfsDistances nodes links iId
    ids.map fun jId => (dist jId).getD none)

/-- The index list of `for (let j = a; j < b; j++)`. -/
def rangeFrom (a b : ℕ) : List ℕ :=
  (List.range (b - a)).map (fun t => a + t)

/-- The unordered-pair accumulation of `graphMetrics` (part_004 lines
63-70): for i and j > i, every finite distance adds to the running sum
and bumps the pair count.  The JS sum variable holds a plain number; the
added values are hop counts, so the sum is accumulated as a natural
number here and converted once at the division. -/
def distPairSums (ids : List String) (mat : List (List (Option ℕ))) : ℕ × ℕ :=
  (List.range ids.length).foldl
    (fun (acc : ℕ × ℕ) i =>
      (rangeFrom (i + 1) ids.length).foldl
        (fun acc2 j =>
          match (mat.getD i []).getD j none with
          | some d => (acc2.1 + d, acc2.2 + 1)
          | none => acc2)
        acc)
    (0, 0)

/-- The result record of `graphMetrics`. -/
structure GraphMetrics where
  ids : List String
  mat : List (List (Option ℕ))
  diameter : ℕ
  radius : ℕ
  avgDistance : ℚ
deriving Repr

/-- Transcription of `graphMetrics` (part_004 lines 48-73): per-node
eccentricity = maximum of the finite entries of its row (0 for an
isolated node), diameter = running maximum of the eccentricities, radius
= `Math.min(...ecc)` for a nonempty graph and 0 otherwise, average
distance = finite-pair sum / finite-pair count (0 when there is no
finite pair). -/
def graphMetrics (nodes : List Node) (links : List Link) : GraphMetrics :=
  let p := distanceMatrix nodes links
  let ids := p.1
  let mat := p.2
  let ecc := (List.range ids.length).map fun i =>
    (List.range ids.length).foldl
      (fun maxd j =>
        match (mat.getD i []).getD j none with
        | some d => if maxd < d then d else maxd
        | none => maxd)
      0
  let diameter := ecc.foldl (fun dia m => if dia < m then m else dia) 0
  let radius :=
    match ecc with
    | [] => 0
    | e :: es => es.foldl min e
  let sc := distPairSums ids mat
  let avg : ℚ := if sc.2 = 0 then 0 else (sc.1 : ℚ) / (sc.2 : ℚ)
  { ids := ids, mat := mat, diameter := diameter, radius := radius,
    avgDistance := avg }

theorem parseMatrix_spec_witness :
    parseMatrix "1 2\n3 4" = .ok [[1, 2], [3, 4]] ∧
    ([[(1 : ℚ), 2], [3, 4]].length = (rowsOf "1 2\n3 4").length ∧
      ([[(1 : ℚ), 2], [3, 4]] : List (List ℚ)) ≠ [] ∧
      (∀ row ∈ ([[(1 : ℚ), 2], [3, 4]] : List (List ℚ)),
        row.length = (([[(1 : ℚ), 2], [3, 4]] : List (List ℚ)).headD []).length ∧
          0 < row.length) ∧
      (∀ r ∈ rowsOf "1 2\n3 4", ∀ c ∈ cellsOf r, ∃ q, jsNumber c = some q)) :=
  ⟨by decide,
    parseMatrix_spec.2.2.2 "1 2\n3 4" [[1, 2], [3, 4]] (by decide)⟩

/-- The four-node path graph of the spec scenario (the page's default
state). -/
def pathNodes : List Node := [⟨"1"⟩, ⟨"2"⟩, ⟨"3"⟩, ⟨"4"⟩]

/-- Its three path edges. -/
def pathLinks : List Link := [⟨"1", "2"⟩, ⟨"2", "3"⟩, ⟨"3", "4"⟩]

/-- C3: on the path graph 1–2–3–4, `graphMetrics` returns diameter 3,
radius 2 and average distance 10/6. -/
theorem graphMetrics_path_example :
    (graphMetrics pathNodes pathLinks).diameter = 3 ∧
    (graphMetrics pathNodes pathLinks).radius = 2 ∧
    (graphMetrics pathNodes pathLinks).avgDistance = 10 / 6 := by
  refine ⟨by decide, by decide, ?_⟩
  have hsc : distPairSums (distanceMatrix pathNodes pathLinks).1
      (distanceMatrix pathNodes pathLinks).2 = (10, 6) := by decide
  simp only [graphMetrics]
  rw [hsc]
  norm_num

/-- Evaluation of the node-initialization fold of `initDist`. -/
theorem foldl_update_sentinel (v0 : Option ℕ) :
    ∀ (nodes : List Node) (m0 : DistMap) (t : String),
      (nodes.foldl (fun m n => update m n.id v0) m0) t =
        if t ∈ nodes.map Node.id then some v0 else m0 t := by
  intro nodes
  induction nodes with
  | nil => intro m0 t; simp
  | cons n ns ih =>
    intro m0 t
    rw [List.foldl_cons, ih]
    by_cases ht : t ∈ ns.map Node.id
    · simp [ht]
    · by_cases hn : t = n.id
      · simp [ht, hn, update]
      · simp [ht, hn, update]

/-- Setting a sentinel entry to a finite distance decreases the number of
sentinel entries over a duplicate-free id list by exactly one. -/
theorem countP_update_set :
    ∀ (l : List String), l.Nodup → ∀ (v : String), v ∈ l →
      ∀ (dist : DistMap), dist v = some none → ∀ (d : ℕ),
      l.countP (fun id => decide ((update dist v (some d)) id = some none)) + 1 =
        l.countP (fun id => decide (dist id = some none)) := by
  intro l
  induction l with
  | nil => intro _ v hv; cases hv
  | cons a t ih =>
    intro hnd v hv dist hval d
    rw [List.countP_cons, List.countP_cons]
    rcases List.mem_cons.mp hv with rfl | hvt
    · have hvnott : v ∉ t := (List.nodup_cons.mp hnd).1
      have ht : t.countP (fun id => decide ((update dist v (some d)) id = some none)) =
          t.countP (fun id => decide (dist id = some none)) := by
        apply List.countP_congr
        intro x hx
        have hxv : x ≠ v := fun h => hvnott (h ▸ hx)
        simp [update, hxv]
      rw [ht]
      simp [update, hval]
    · have ha : a ≠ v := by
        rintro rfl
        exact (List.nodup_cons.mp hnd).1 hvt
      have hhead : (update dist v (some d)) a = dist a := by simp [update, ha]
      have := ih (List.nodup_cons.mp hnd).2 v hvt dist hval d
      rw [hhead]
      omega

/-- The neighbor-processing fold of one BFS dequeue keeps the invariant
that only node ids carry the sentinel, and does not increase the
termination measure |queue| + #sentinel-entries. -/
theorem bfs_fold_measure (nodes : List Node) (du : ℕ) :
    ∀ (ns : List String) (dist : DistMap) (q : List String),
      (∀ v, dist v = some none → v ∈ (nodes.map Node.id).dedup) →
      (∀ v, (ns.foldl (fun (p : DistMap × List String) v =>
          if p.1 v = some none then (update p.1 v (some (du + 1)), p.2 ++ [v]) else p)
          (dist, q)).1 v = some none → v ∈ (nodes.map Node.id).dedup) ∧
      (ns.foldl (fun (p : DistMap × List String) v =>
          if p.1 v = some none then (update p.1 v (some (du + 1)), p.2 ++ [v]) else p)
          (dist, q)).2.length +
        (nodes.map Node.id).dedup.countP
          (fun id => decide ((ns.foldl (fun (p : DistMap × List String) v =>
            if p.1 v = some none then (update p.1 v (some (du + 1)), p.2 ++ [v]) else p)
            (dist, q)).1 id = some none)) ≤
      q.length + (nodes.map Node.id).dedup.countP
        (fun id => decide (dist id = some none)) := by
  intro ns
  induction ns with
  | nil => intro dist q hinv; exact ⟨hinv, le_refl _⟩
  | cons v ns ih =>
    intro dist q hinv
    simp only [List.foldl_cons]
    by_cases hv : dist v = some none
    · rw [if_pos hv]
      have hvmem : v ∈ (nodes.map Node.id).dedup := hinv v hv
      have hinv2 : ∀ w, (update dist v (some (du + 1))) w = some none →
          w ∈ (nodes.map Node.id).dedup := by
        intro w hw
        by_cases hwv : w = v
        · subst hwv
          simp [update] at hw
        · rw [show (update dist v (some (du + 1))) w = dist w by simp [update, hwv]] at hw
          exact hinv w hw
      obtain ⟨ha, hb⟩ := ih (update dist v (some (du + 1))) (q ++ [v]) hinv2
      refine ⟨ha, le_trans hb ?_⟩
      have hcount := countP_update_set (nodes.map Node.id).dedup
        (List.nodup_dedup _) v hvmem dist hv (du + 1)
      simp only [List.length_append, List.length_cons, List.length_nil]
      omega
    · rw [if_neg hv]
      exact ih dist q hinv

/-- The BFS loop with enough fuel for the current measure always halts
with a result. -/
theorem bfsLoop_isSome_of (adj : MapS (List String)) (nodes : List Node) :
    ∀ (fuel : ℕ) (q : List String) (dist : DistMap),
      (∀ v, dist v = some none → v ∈ (nodes.map Node.id).dedup) →
      q.length + (nodes.map Node.id).dedup.countP
        (fun id => decide (dist id = some none)) ≤ fuel →
      (bfsLoop adj fuel q dist).isSome = true := by
  intro fuel
  induction fuel with
  | zero =>
    intro q dist hinv hm
    cases q with
    | nil => rfl
    | cons u q' => simp at hm
  | succ fuel ih =>
    intro q dist hinv hm
    cases q with
    | nil => rfl
    | cons u q' =>
      simp only [bfsLoop]
      obtain ⟨hinv2, hle⟩ := bfs_fold_measure nodes
        (readDist dist u)
        ((adj u).getD []) dist q' hinv
      apply ih _ _ hinv2
      simp only [List.length_cons] at hm
      omega

/-- C9: `bfsDistances` terminates on every finite node list, link list and
start id: the work loop, run with fuel |nodes| + 1 (the maximum possible
number of dequeues, since the start id is enqueued once and every other id
is enqueued at most once — its `Infinity` sentinel is overwritten with a
finite distance right before it is pushed, and only sentinel-carrying ids
are ever pushed), always returns a result instead of exhausting its
fuel. -/
theorem bfsLoop_isSome (nodes : List Node) (links : List Link) (startId : String) :
    (bfsLoop (buildAdj nodes links) (nodes.length + 1) [startId]
      (initDist nodes startId)).isSome = true := by
  apply bfsLoop_isSome_of (buildAdj nodes links) nodes
  · intro v hv
    unfold initDist at hv
    by_cases hvs : v = startId
    · simp [update, hvs] at hv
    · rw [show (update (nodes.foldl (fun m n => update m n.id (none : Option ℕ))
          emptyMap) startId (some 0)) v =
          (nodes.foldl (fun m n => update m n.id (none : Option ℕ)) emptyMap) v
        by simp [update, hvs]] at hv
      rw [foldl_update_sentinel] at hv
      by_cases hvm : v ∈ nodes.map Node.id
      · exact List.mem_dedup.mpr hvm
      · rw [if_neg hvm] at hv
        exact absurd hv (by simp [emptyMap])
  · have h1 : (nodes.map Node.id).dedup.countP
        (fun id => decide (initDist nodes startId id = some none)) ≤
        (nodes.map Node.id).dedup.length := List.countP_le_length _
    have h2 : (nodes.map Node.id).dedup.length ≤ (nodes.map Node.id).length :=
      (List.dedup_sublist _).length_le
    have h3 : (nodes.map Node.id).length = nodes.length := List.length_map _ _
    simp only [List.length_cons, List.length_nil]
    omega

/-- `bfsDistances` is the result of the fueled loop. -/
theorem bfsDistances_eq_loop (nodes : List Node) (links : List Link)
    (startId : String) :
    ∃ D, bfsLoop (buildAdj nodes links) (nodes.length + 1) [startId]
        (initDist nodes startId) = some D ∧
      bfsDistances nodes links startId = D := by
  obtain ⟨D, hD⟩ := Option.isSome_iff_exists.mp (bfsLoop_isSome nodes links startId)
  exact ⟨D, hD, by simp [bfsDistances, hD]⟩

/-- Evaluation of a node-keyed constant-initialization fold (used both by
the all-`Infinity` distance map and the empty-neighbor-list adjacency
base). -/
theorem foldl_update_const {α : Type} (v0 : α) :
    ∀ (nodes : List Node) (m0 : MapS α) (t : String),
      (nodes.foldl (fun m n => update m n.id v0) m0) t =
        if t ∈ nodes.map Node.id then some v0 else m0 t := by
  intro nodes
  induction nodes with
  | nil => intro m0 t; simp
  | cons n ns ih =>
    intro m0 t
    rw [List.foldl_cons, ih]
    by_cases ht : t ∈ ns.map Node.id
    · simp [ht]
    · by_cases hn : t = n.id
      · simp [ht, hn, update]
      · simp [ht, hn, update]

/-- Pointwise value of the initial distance map. -/
theorem initDist_eval (nodes : List Node) (s t : String) :
    initDist nodes s t =
      if t = s then some (some 0)
      else if t ∈ nodes.map Node.id then some none else none := by
  simp only [initDist, update]
  by_cases hts : t = s
  · rw [if_pos hts, if_pos hts]
  · rw [if_neg hts, if_neg hts, foldl_update_const]
    rfl

/-- An empty queue ends the loop at once, whatever the fuel. -/
theorem bfsLoop_nil (adj : MapS (List String)) (dist : DistMap) :
    ∀ fuel, bfsLoop adj fuel [] dist = some dist := by
  intro fuel
  cases fuel <;> rfl

/-- With no links every BFS run returns its initial distance map. -/
theorem bfsDistances_no_links (nodes : List Node) (s : String) :
    bfsDistances nodes [] s = initDist nodes s := by
  have hadj : ∀ u, ((buildAdj nodes []) u).getD [] = [] := by
    intro u
    simp only [buildAdj, List.foldl_nil]
    rw [foldl_update_const]
    by_cases hu : u ∈ nodes.map Node.id
    · rw [if_pos hu]
      rfl
    · rw [if_neg hu]
      rfl
  simp only [bfsDistances, bfsLoop, hadj, List.foldl_nil]
  rfl

/-- `getD` through `map` at an in-range index. -/
theorem getD_map_lt {α β : Type} (f : α → β) :
    ∀ (l : List α) (i : ℕ), i < l.length → ∀ (d : β) (d0 : α),
      (l.map f).getD i d = f (l.getD i d0) := by
  intro l
  induction l with
  | nil => intro i hi; exact absurd hi (by simp)
  | cons a t ih =>
    intro i hi d d0
    cases i with
    | zero => rfl
    | succ k =>
      simp only [List.map_cons, List.getD_cons_succ]
      exact ih k (by simpa using hi) d d0

/-- Cell (i, j) of the distance matrix is the BFS value from the i-th id
at the j-th id. -/
theorem distanceMatrix_entry (nodes : List Node) (links : List Link)
    (i j : ℕ) (hi : i < nodes.length) (hj : j < nodes.length) :
    ((distanceMatrix nodes links).2.getD i []).getD j none =
      ((bfsDistances nodes links ((nodes.map Node.id).getD i ""))
        ((nodes.map Node.id).getD j "")).getD none := by
  have hlen : (nodes.map Node.id).length = nodes.length := List.length_map _ _
  simp only [distanceMatrix]
  rw [getD_map_lt _ (nodes.map Node.id) i (by omega) [] ""]
  rw [getD_map_lt _ (nodes.map Node.id) j (by omega) none ""]

/-- A fold of the eccentricity body over entries that are all `Infinity`
or 0 stays at 0. -/
theorem foldl_max_zero (g : ℕ → Option ℕ) :
    ∀ (js : List ℕ), (∀ j ∈ js, g j = none ∨ g j = some 0) →
      js.foldl (fun maxd j =>
        match g j with
        | some d => if maxd < d then d else maxd
        | none => maxd) 0 = 0 := by
  intro js
  induction js with
  | nil => intro _; rfl
  | cons j t ih =>
    intro h
    rw [List.foldl_cons]
    rcases h j (by simp) with hj | hj
    · rw [hj]
      exact ih (fun x hx => h x (by simp [hx]))
    · rw [hj]
      simp only [Nat.lt_irrefl, if_false]
      exact ih (fun x hx => h x (by simp [hx]))

/-- A fold of the pair-accumulation body over entries that are all
`Infinity` keeps its accumulator. -/
theorem foldl_pairs_const (g : ℕ → Option ℕ) :
    ∀ (js : List ℕ) (acc : ℕ × ℕ), (∀ j ∈ js, g j = none) →
      js.foldl (fun acc2 j =>
        match g j with
        | some d => (acc2.1 + d, acc2.2 + 1)
        | none => acc2) acc = acc := by
  intro js
  induction js with
  | nil => intro acc _; rfl
  | cons j t ih =>
    intro acc h
    rw [List.foldl_cons, h j (by simp)]
    exact ih acc (fun x hx => h x (by simp [hx]))

/-- A fold whose step fixes every accumulator is the identity. -/
theorem foldl_fixed_of {α β : Type} (f : β → α → β) :
    ∀ (l : List α) (b : β), (∀ b' x, x ∈ l → f b' x = b') → l.foldl f b = b := by
  intro l
  induction l with
  | nil => intro b _; rfl
  | cons a t ih =>
    intro b h
    rw [List.foldl_cons, h b a (by simp)]
    exact ih b (fun b' x hx => h b' x (by simp [hx]))

/-- Membership in a `for (j = a; j < b)` index list. -/
theorem mem_rangeFrom (a b j : ℕ) : j ∈ rangeFrom a b ↔ a ≤ j ∧ j < b := by
  simp only [rangeFrom, List.mem_map, List.mem_range]
  constructor
  · rintro ⟨t, ht, rfl⟩
    omega
  · intro ⟨h1, h2⟩
    exact ⟨j - a, by omega, by omega⟩

/-- The id component of the distance matrix. -/
theorem distanceMatrix_fst (nodes : List Node) (links : List Link) :
    (distanceMatrix nodes links).1 = nodes.map Node.id := rfl

/-- A minimum fold over zeros is zero. -/
theorem foldl_min_zero : ∀ (es : List ℕ), (∀ x ∈ es, x = 0) → es.foldl min 0 = 0 := by
  intro es
  induction es with
  | nil => intro _; rfl
  | cons e t ih =>
    intro h
    rw [List.foldl_cons, h e (by simp), Nat.min_self]
    exact ih (fun x hx => h x (by simp [hx]))

/-- C10: on a graph with no links — the empty graph included — all three
metrics are 0 and, when the node ids are distinct, every off-diagonal
cell of the distance matrix is the `Infinity` sentinel. -/
theorem graphMetrics_no_links (nodes : List Node)
    (hnd : (nodes.map Node.id).Nodup) :
    (graphMetrics nodes []).diameter = 0 ∧
    (graphMetrics nodes []).radius = 0 ∧
    (graphMetrics nodes []).avgDistance = 0 ∧
    (∀ i j, i < nodes.length → j < nodes.length → i ≠ j →
      ((distanceMatrix nodes []).2.getD i []).getD j none = none) := by
  have hids : (nodes.map Node.id).length = nodes.length := List.length_map _ _
  have hentry : ∀ i j, i < nodes.length → j < nodes.length →
      ((distanceMatrix nodes []).2.getD i []).getD j none =
        if i = j then some 0 else none := by
    intro i j hi hj
    rw [distanceMatrix_entry nodes [] i j hi hj, bfsDistances_no_links, initDist_eval]
    by_cases hij : i = j
    · subst hij
      rw [if_pos rfl, if_pos rfl]
      rfl
    · have hj' : j < (nodes.map Node.id).length := by omega
      have hi' : i < (nodes.map Node.id).length := by omega
      have hne : (nodes.map Node.id).getD j "" ≠ (nodes.map Node.id).getD i "" := by
        intro he
        apply hij
        rw [List.getD_eq_getElem _ _ hj', List.getD_eq_getElem _ _ hi'] at he
        exact ((List.Nodup.getElem_inj_iff hnd).mp he).symm
      have hmem : (nodes.map Node.id).getD j "" ∈ nodes.map Node.id := by
        rw [List.getD_eq_getElem _ _ hj']
        exact List.getElem_mem _
      rw [if_neg hne, if_pos hmem, if_neg hij]
      rfl
  have heccall : ∀ x ∈ (List.range (distanceMatrix nodes []).1.length).map (fun i =>
      (List.range (distanceMatrix nodes []).1.length).foldl
        (fun maxd j =>
          match ((distanceMatrix nodes []).2.getD i []).getD j none with
          | some d => if maxd < d then d else maxd
          | none => maxd)
        0), x = 0 := by
    intro x hx
    obtain ⟨i, hiR, rfl⟩ := List.mem_map.mp hx
    apply foldl_max_zero
    intro j hjR
    rw [distanceMatrix_fst, hids] at hiR hjR
    have hi' := List.mem_range.mp hiR
    have hj' := List.mem_range.mp hjR
    rw [hentry i j hi' hj']
    by_cases hij : i = j
    · right
      rw [if_pos hij]
    · left
      rw [if_neg hij]
  have hpairs : distPairSums (distanceMatrix nodes []).1 (distanceMatrix nodes []).2 =
      (0, 0) := by
    simp only [distPairSums]
    apply foldl_fixed_of
    intro acc i hiR
    apply foldl_pairs_const
    intro j hjR
    rw [distanceMatrix_fst, hids] at hiR
    rw [mem_rangeFrom, distanceMatrix_fst, hids] at hjR
    exact (by
      rw [hentry i j (List.mem_range.mp hiR) (by omega), if_neg (by omega)])
  refine ⟨?_, ?_, ?_, fun i j hi hj hij => by rw [hentry i j hi hj, if_neg hij]⟩
  · show ((List.range (distanceMatrix nodes []).1.length).map (fun i =>
      (List.range (distanceMatrix nodes []).1.length).foldl
        (fun maxd j =>
          match ((distanceMatrix nodes []).2.getD i []).getD j none with
          | some d => if maxd < d then d else maxd
          | none => maxd)
        0)).foldl (fun dia m => if dia < m then m else dia) 0 = 0
    apply foldl_fixed_of
    intro b' x hx
    rw [heccall x hx]
    simp
  · show (match (List.range (distanceMatrix nodes []).1.length).map (fun i =>
      (List.range (distanceMatrix nodes []).1.length).foldl
        (fun maxd j =>
          match ((distanceMatrix nodes []).2.getD i []).getD j none with
          | some d => if maxd < d then d else maxd
          | none => maxd)
        0) with
      | [] => 0
      | e :: es => es.foldl min e) = 0
    cases hc : (List.range (distanceMatrix nodes []).1.length).map (fun i =>
      (List.range (distanceMatrix nodes []).1.length).foldl
        (fun maxd j =>
          match ((distanceMatrix nodes []).2.getD i []).getD j none with
          | some d => if maxd < d then d else maxd
          | none => maxd)
        0) with
    | nil => rfl
    | cons e es =>
      have he : e = 0 := heccall e (by rw [hc]; simp)
      have hes : ∀ x ∈ es, x = 0 := fun x hx => heccall x (by rw [hc]; simp [hx])
      subst he
      exact foldl_min_zero es hes
  · show (if (distPairSums (distanceMatrix nodes []).1
        (distanceMatrix nodes []).2).2 = 0 then (0 : ℚ)
      else ((distPairSums (distanceMatrix nodes []).1
        (distanceMatrix nodes []).2).1 : ℚ) /
          ((distPairSums (distanceMatrix nodes []).1
            (distanceMatrix nodes []).2).2 : ℚ)) = 0
    rw [hpairs]
    rfl

theorem graphMetrics_no_links_witness :
    (pathNodes.map Node.id).Nodup ∧
    (graphMetrics pathNodes []).diameter = 0 ∧
    (graphMetrics pathNodes []).radius = 0 ∧
    (graphMetrics pathNodes []).avgDistance = 0 ∧
    ((distanceMatrix pathNodes []).2.getD 0 []).getD 1 none = none := by
  have h := graphMetrics_no_links pathNodes (by decide)
  exact ⟨by decide, h.1, h.2.1, h.2.2.1,
    h.2.2.2 0 1 (by decide) (by decide) (by decide)⟩

/-- Link-level adjacency of the graph handed to the metrics engine: u and
v are adjacent when some stored link joins them in either direction. -/
def AdjRel (links : List Link) (u v : String) : Prop :=
  ∃ e ∈ links, (e.source = u ∧ e.target = v) ∨ (e.source = v ∧ e.target = u)

/-- Walks of a given edge count along `AdjRel`. -/
inductive WalkLen (links : List Link) : String → String → ℕ → Prop
  | refl (u : String) : WalkLen links u u 0
  | step {s u v : String} {n : ℕ} : WalkLen links s u n → AdjRel links u v →
      WalkLen links s v (n + 1)

theorem AdjRel.flip {links : List Link} {u v : String} (h : AdjRel links u v) :
    AdjRel links v u := by
  obtain ⟨e, he, h1 | h2⟩ := h
  · exact ⟨e, he, Or.inr h1⟩
  · exact ⟨e, he, Or.inl h2⟩

theorem WalkLen.head {links : List Link} {s u t : String} {n : ℕ}
    (hadj : AdjRel links s u) (hw : WalkLen links u t n) :
    WalkLen links s t (n + 1) := by
  induction hw with
  | refl => exact .step (.refl s) hadj
  | step hw' he ih => exact .step ih he

theorem WalkLen.reverse {links : List Link} {s t : String} {n : ℕ}
    (hw : WalkLen links s t n) : WalkLen links t s n := by
  induction hw with
  | refl => exact .refl _
  | step hw' he ih => exact ih.head he.flip

/-- Setting an already-present key does not change which keys are
present. -/
theorem update_isSome_of_mem {α : Type} (m : MapS α) (k : String) (v : α)
    (hk : (m k).isSome = true) (u : String) :
    ((update m k v) u).isSome = (m u).isSome := by
  by_cases hu : u = k
  · subst hu
    simp [update, hk]
  · simp [update, hu]

/-- Processing one link never adds or removes adjacency keys (both pushes
target existing keys). -/
theorem adjLinkStep_dom (m : MapS (List String)) (e : Link) (u : String) :
    ((adjLinkStep m e) u).isSome = (m u).isSome := by
  simp only [adjLinkStep]
  cases hs : m e.source with
  | none =>
    cases ht : m e.target with
    | none => simp [hs, ht]
    | some lt =>
      simp only [hs, ht]
      exact update_isSome_of_mem m e.target _ (by simp [ht]) u
  | some ls =>
    have h1 : ∀ w, ((update m e.source (ls ++ [e.target])) w).isSome = (m w).isSome :=
      update_isSome_of_mem m e.source _ (by simp [hs])
    cases ht : (update m e.source (ls ++ [e.target])) e.target with
    | none => simp [hs, ht, h1]
    | some lt =>
      simp only [hs, ht]
      exact (update_isSome_of_mem _ e.target _ (by simp [ht]) u).trans (h1 u)

/-- Closed form of one link-processing step on present, distinct
endpoints. -/
theorem adjLinkStep_eval (m : MapS (List String)) (e : Link)
    (ls lt : List String) (hs : m e.source = some ls) (ht : m e.target = some lt)
    (hne : e.source ≠ e.target) (u : String) :
    (adjLinkStep m e) u =
      if u = e.target then some (lt ++ [e.source])
      else if u = e.source then some (ls ++ [e.target])
      else m u := by
  have hm1t : (update m e.source (ls ++ [e.target])) e.target = some lt := by
    simp only [update]
    rw [if_neg (fun h => hne h.symm), ht]
  simp only [adjLinkStep, hs, hm1t]
  by_cases hut : u = e.target
  · simp [update, hut]
  · by_cases hus : u = e.source
    · simp [update, hut, hus]
    · simp [update, hut, hus]

/-- Membership after one link-processing step: the old list contents plus
the new link in either orientation. -/
theorem adjLinkStep_mem (m : MapS (List String)) (e : Link)
    (ls lt : List String) (hs : m e.source = some ls) (ht : m e.target = some lt)
    (hne : e.source ≠ e.target) :
    ∀ u l, (adjLinkStep m e) u = some l → ∀ v,
      (v ∈ l ↔ (∃ l0, m u = some l0 ∧ v ∈ l0) ∨
        (e.source = u ∧ e.target = v) ∨ (e.source = v ∧ e.target = u)) := by
  intro u l hl v
  rw [adjLinkStep_eval m e ls lt hs ht hne u] at hl
  by_cases hut : u = e.target
  · rw [if_pos hut] at hl
    injection hl with hl
    subst hl
    constructor
    · intro hv
      rcases List.mem_append.mp hv with hv | hv
      · exact Or.inl ⟨lt, by rw [hut]; exact ht, hv⟩
      · exact Or.inr (Or.inr ⟨(List.mem_singleton.mp hv).symm, hut.symm⟩)
    · rintro (⟨l0, hml, hv⟩ | ⟨h1, h2⟩ | ⟨h1, h2⟩)
      · rw [hut, ht] at hml
        injection hml with hml
        subst hml
        exact List.mem_append.mpr (Or.inl hv)
      · exact absurd (h1.trans hut) hne
      · exact List.mem_append.mpr (Or.inr (List.mem_singleton.mpr h1.symm))
  · rw [if_neg hut] at hl
    by_cases hus : u = e.source
    · rw [if_pos hus] at hl
      injection hl with hl
      subst hl
      constructor
      · intro hv
        rcases List.mem_append.mp hv with hv | hv
        · exact Or.inl ⟨ls, by rw [hus]; exact hs, hv⟩
        · exact Or.inr (Or.inl ⟨hus.symm, (List.mem_singleton.mp hv).symm⟩)
      · rintro (⟨l0, hml, hv⟩ | ⟨h1, h2⟩ | ⟨h1, h2⟩)
        · rw [hus, hs] at hml
          injection hml with hml
          subst hml
          exact List.mem_append.mpr (Or.inl hv)
        · exact List.mem_append.mpr (Or.inr (List.mem_singleton.mpr h2.symm))
        · exact absurd h2.symm hut
    · rw [if_neg hus] at hl
      have h1 : ¬ (e.source = u) := fun h => hus h.symm
      have h2 : ¬ (e.target = u) := fun h => hut h.symm
      simp [hl, h1, h2]

theorem adjRel_cons (e : Link) (tl : List Link) (u v : String) :
    AdjRel (e :: tl) u v ↔
      ((e.source = u ∧ e.target = v) ∨ (e.source = v ∧ e.target = u)) ∨
        AdjRel tl u v := by
  constructor
  · rintro ⟨e', he', hor⟩
    rcases List.mem_cons.mp he' with rfl | he'
    · exact Or.inl hor
    · exact Or.inr ⟨e', he', hor⟩
  · rintro (hor | ⟨e', he', hor⟩)
    · exact ⟨e, by simp, hor⟩
    · exact ⟨e', by simp [he'], hor⟩

/-- The link fold preserves the present keys. -/
theorem foldl_adjLinkStep_dom :
    ∀ (ls : List Link) (m : MapS (List String)) (u : String),
      ((ls.foldl adjLinkStep m) u).isSome = (m u).isSome := by
  intro ls
  induction ls with
  | nil => intro m u; rfl
  | cons e tl ih =>
    intro m u
    rw [List.foldl_cons, ih, adjLinkStep_dom]

/-- Neighbor-list membership accumulated over the link fold: the base
contents (described by `P`) plus one entry per processed link joining the
key, in either orientation. -/
theorem adj_fold_mem :
    ∀ (ls : List Link) (m : MapS (List String)) (P : String → String → Prop),
      (∀ e ∈ ls, (m e.source).isSome = true ∧ (m e.target).isSome = true) →
      (∀ e ∈ ls, e.source ≠ e.target) →
      (∀ u l, m u = some l → ∀ v, (v ∈ l ↔ P u v)) →
      ∀ u l, (ls.foldl adjLinkStep m) u = some l →
        ∀ v, (v ∈ l ↔ P u v ∨ AdjRel ls u v) := by
  intro ls
  induction ls with
  | nil =>
    intro m P _ _ hbase u l hl v
    rw [List.foldl_nil] at hl
    rw [hbase u l hl v]
    simp [AdjRel]
  | cons e tl ih =>
    intro m P hdom hsl hbase u l hl v
    rw [List.foldl_cons] at hl
    obtain ⟨hsD, htD⟩ := hdom e (by simp)
    obtain ⟨ls0, hs⟩ := Option.isSome_iff_exists.mp hsD
    obtain ⟨lt0, ht⟩ := Option.isSome_iff_exists.mp htD
    have hstep := adjLinkStep_mem m e ls0 lt0 hs ht (hsl e (by simp))
    have hdom' : ∀ e' ∈ tl, ((adjLinkStep m e) e'.source).isSome = true ∧
        ((adjLinkStep m e) e'.target).isSome = true := by
      intro e' he'
      rw [adjLinkStep_dom, adjLinkStep_dom]
      exact hdom e' (by simp [he'])
    have hbase' : ∀ u l, (adjLinkStep m e) u = some l → ∀ v,
        (v ∈ l ↔ (P u v ∨
          ((e.source = u ∧ e.target = v) ∨ (e.source = v ∧ e.target = u)))) := by
      intro u' l' hl' v'
      rw [hstep u' l' hl' v']
      constructor
      · rintro (⟨l0, hml, hv⟩ | h)
        · exact Or.inl ((hbase u' l0 hml v').mp hv)
        · exact Or.inr h
      · rintro (hp | h)
        · have hu'dom : ((m u')).isSome = true := by
            rw [← adjLinkStep_dom m e u', hl']
            rfl
          obtain ⟨l0, hml⟩ := Option.isSome_iff_exists.mp hu'dom
          exact Or.inl ⟨l0, hml, (hbase u' l0 hml v').mpr hp⟩
        · exact Or.inr h
    rw [ih (adjLinkStep m e) _ hdom' (fun e' he' => hsl e' (by simp [he'])) hbase'
      u l hl v]
    rw [adjRel_cons]
    tauto

/-- Characterization of the adjacency map on a graph whose links join
distinct existing node ids: neighbor-list membership is exactly link-level
adjacency, and exactly the node ids are present keys. -/
theorem buildAdj_spec (nodes : List Node) (links : List Link)
    (hlk : ∀ e ∈ links, e.source ∈ nodes.map Node.id ∧ e.target ∈ nodes.map Node.id)
    (hsl : ∀ e ∈ links, e.source ≠ e.target) :
    (∀ u v, v ∈ ((buildAdj nodes links) u).getD [] ↔ AdjRel links u v) ∧
    (∀ u, ((buildAdj nodes links) u).isSome = true ↔ u ∈ nodes.map Node.id) := by
  have hbase0 : ∀ u, (nodes.foldl (fun m n => update m n.id ([] : List String))
      emptyMap) u = if u ∈ nodes.map Node.id then some [] else none := by
    intro u
    rw [foldl_update_const]
    by_cases hu : u ∈ nodes.map Node.id
    · rw [if_pos hu, if_pos hu]
    · rw [if_neg hu, if_neg hu]
      rfl
  have hdomIff : ∀ u, ((buildAdj nodes links) u).isSome = true ↔
      u ∈ nodes.map Node.id := by
    intro u
    rw [buildAdj, foldl_adjLinkStep_dom, hbase0]
    by_cases hu : u ∈ nodes.map Node.id
    · simp [hu]
    · simp [hu]
  refine ⟨?_, hdomIff⟩
  intro u v
  by_cases hu : u ∈ nodes.map Node.id
  · obtain ⟨l, hel⟩ := Option.isSome_iff_exists.mp ((hdomIff u).mpr hu)
    rw [hel]
    simp only [Option.getD_some]
    rw [buildAdj] at hel
    have := adj_fold_mem links
      (nodes.foldl (fun m n => update m n.id ([] : List String)) emptyMap)
      (fun _ _ => False)
      (by
        intro e he
        obtain ⟨h1, h2⟩ := hlk e he
        rw [hbase0, hbase0, if_pos h1, if_pos h2]
        exact ⟨rfl, rfl⟩)
      hsl
      (by
        intro u' l' hl' v'
        rw [hbase0] at hl'
        by_cases hu' : u' ∈ nodes.map Node.id
        · rw [if_pos hu'] at hl'
          injection hl' with hl'
          subst hl'
          simp
        · rw [if_neg hu'] at hl'
          exact absurd hl' (by simp))
      u l hel v
    rw [this]
    simp
  · have : ((buildAdj nodes links) u) = none := by
      have h := (hdomIff u)
      cases hc : (buildAdj nodes links) u with
      | none => rfl
      | some l =>
        rw [hc] at h
        exact absurd ((h.mp rfl)) hu
    rw [this]
    simp only [Option.getD_none, List.not_mem_nil, false_iff]
    intro hadj
    obtain ⟨e, he, hor⟩ := hadj
    obtain ⟨h1, h2⟩ := hlk e he
    rcases hor with ⟨hh, _⟩ | ⟨_, hh⟩
    · exact hu (hh ▸ h1)
    · exact hu (hh ▸ h2)

/-- Loop invariant of the BFS correctness proof at a state with queue
`qa ++ qb`: the block `qa` holds ids at BFS level `k` and `qb` the ids at
level `k + 1`; every assigned distance is realized by a walk and bounded
by `k + 1`; dequeued (retired) ids have all their neighbors assigned with
distance at most one more than their own. -/
structure BfsInv (links : List Link) (ids : List String)
    (adj : MapS (List String)) (s : String) (k : ℕ)
    (qa qb : List String) (dist : DistMap) : Prop where
  sound : ∀ v d, dist v = some (some d) → WalkLen links s v d
  start0 : dist s = some (some 0)
  leva : ∀ v ∈ qa, dist v = some (some k)
  levb : ∀ v ∈ qb, dist v = some (some (k + 1))
  nodup : (qa ++ qb).Nodup
  bound : ∀ v d, dist v = some (some d) → d ≤ k + 1
  keys : ∀ v ∈ ids, dist v ≠ none
  retired : ∀ u du, dist u = some (some du) → u ∉ qa ++ qb →
    ∀ v ∈ (adj u).getD [], ∃ dv, dist v = some (some dv) ∧ dv ≤ du + 1

/-- What remains of the invariant once the queue has drained. -/
structure BfsFinal (links : List Link) (ids : List String)
    (adj : MapS (List String)) (s : String) (dist : DistMap) : Prop where
  sound : ∀ v d, dist v = some (some d) → WalkLen links s v d
  start0 : dist s = some (some 0)
  keys : ∀ v ∈ ids, dist v ≠ none
  retiredAll : ∀ u du, dist u = some (some du) →
    ∀ v ∈ (adj u).getD [], ∃ dv, dist v = some (some dv) ∧ dv ≤ du + 1

theorem BfsInv.toFinal {links : List Link} {ids : List String}
    {adj : MapS (List String)} {s : String} {k : ℕ} {qa qb : List String}
    {dist : DistMap} (h : BfsInv links ids adj s k qa qb dist)
    (hq : qa ++ qb = []) : BfsFinal links ids adj s dist :=
  ⟨h.sound, h.start0, h.keys, fun u du hdu =>
    h.retired u du hdu (by rw [hq]; exact List.not_mem_nil u)⟩

/-- When the level-`k` block has drained, the state is a valid level-
`(k+1)` state. -/
theorem BfsInv.shift {links : List Link} {ids : List String}
    {adj : MapS (List String)} {s : String} {k : ℕ} {qb : List String}
    {dist : DistMap} (h : BfsInv links ids adj s k [] qb dist) :
    BfsInv links ids adj s (k + 1) qb [] dist := by
  refine ⟨h.sound, h.start0, h.levb, by simp, ?_, ?_, h.keys, ?_⟩
  · have := h.nodup
    simp at this ⊢
    exact this
  · intro v d hd
    exact (h.bound v d hd).trans (by omega)
  · intro u du hdu hu
    exact h.retired u du hdu (by simpa using hu)

/-- Processing the neighbor list of the dequeued head `u` preserves the
invariant, moves the head out of the queue, and leaves a record that all
of `u`'s neighbors are assigned. -/
theorem bfs_fold_inv (links : List Link) (ids : List String)
    (adj : MapS (List String)) (s : String) (k : ℕ) (u : String)
    (hAdj : ∀ w v, v ∈ (adj w).getD [] ↔ AdjRel links w v)
    (hAdjIds : ∀ w v, AdjRel links w v → w ∈ ids ∧ v ∈ ids) :
    ∀ (ns done : List String) (dist : DistMap) (qa' qb : List String),
      (adj u).getD [] = done ++ ns →
      BfsInv links ids adj s k (u :: qa') qb dist →
      (∀ v ∈ done, ∃ dv, dist v = some (some dv) ∧ dv ≤ k + 1) →
      ∃ qb2 dist2,
        ns.foldl (fun (p : DistMap × List String) v =>
          if p.1 v = some none then (update p.1 v (some (k + 1)), p.2 ++ [v]) else p)
          (dist, qa' ++ qb) = (dist2, qa' ++ qb2) ∧
        BfsInv links ids adj s k qa' qb2 dist2 := by
  intro ns
  induction ns with
  | nil =>
    intro done dist qa' qb hsplit hinv hdone
    rw [List.append_nil] at hsplit
    refine ⟨qb, dist, rfl, ?_⟩
    have hdu : dist u = some (some k) := hinv.leva u (by simp)
    refine ⟨hinv.sound, hinv.start0, fun v hv => hinv.leva v (by simp [hv]),
      hinv.levb, (List.nodup_cons.mp (by simpa using hinv.nodup)).2,
      hinv.bound, hinv.keys, ?_⟩
    intro u' du' hdu' hu'
    by_cases huu : u' = u
    · subst huu
      have hk : du' = k := by
        rw [hdu'] at hdu
        injection hdu with hdu
        injection hdu with hdu
      subst hk
      intro v hv
      rw [hsplit] at hv
      exact hdone v hv
    · refine hinv.retired u' du' hdu' ?_
      simp only [List.cons_append, List.mem_cons]
      rintro (heq | hmem)
      · exact huu heq
      · exact hu' hmem
  | cons v ns' ih =>
    intro done dist qa' qb hsplit hinv hdone
    rw [List.foldl_cons]
    have hvadj : v ∈ (adj u).getD [] := by
      rw [hsplit]
      simp
    have hWadj : AdjRel links u v := (hAdj u v).mp hvadj
    have hdu : dist u = some (some k) := hinv.leva u (by simp)
    by_cases hv : dist v = some none
    · rw [if_pos hv]
      have hvnot : v ∉ (u :: qa') ++ qb := by
        simp only [List.cons_append, List.mem_cons, List.mem_append]
        rintro (heq | hmem | hmem)
        · rw [heq, hdu] at hv
          simp at hv
        · rw [hinv.leva v (by simp [hmem])] at hv
          simp at hv
        · rw [hinv.levb v hmem] at hv
          simp at hv
      have hSnot : s ≠ v := by
        intro h
        rw [← h, hinv.start0] at hv
        simp at hv
      have hinv2 : BfsInv links ids adj s k (u :: qa') (qb ++ [v])
          (update dist v (some (k + 1))) := by
        refine ⟨?_, ?_, ?_, ?_, ?_, ?_, ?_, ?_⟩
        · intro w d hw
          by_cases hwv : w = v
          · subst hwv
            rw [show update dist w (some (k + 1)) w = some (some (k + 1)) by
              simp [update]] at hw
            injection hw with hw
            injection hw with hw
            exact hw ▸ ((hinv.sound u k hdu).step hWadj)
          · rw [show update dist v (some (k + 1)) w = dist w by
              simp [update, hwv]] at hw
            exact hinv.sound w d hw
        · rw [show update dist v (some (k + 1)) s = dist s by
            simp [update, fun h => hSnot h]]
          exact hinv.start0
        · intro w hw
          have hwv : w ≠ v := by
            intro h
            rw [← h, hinv.leva w hw] at hv
            simp at hv
          rw [show update dist v (some (k + 1)) w = dist w by simp [update, hwv]]
          exact hinv.leva w hw
        · intro w hw
          rcases List.mem_append.mp hw with hw | hw
          · have hwv : w ≠ v := by
              intro h
              rw [← h, hinv.levb w hw] at hv
              simp at hv
            rw [show update dist v (some (k + 1)) w = dist w by simp [update, hwv]]
            exact hinv.levb w hw
          · rw [List.mem_singleton.mp hw]
            simp [update]
        · rw [show (u :: qa') ++ (qb ++ [v]) = ((u :: qa') ++ qb) ++ [v] by simp]
          rw [List.nodup_append]
          refine ⟨hinv.nodup, List.nodup_singleton v, ?_⟩
          intro a ha hav
          rw [List.mem_singleton.mp hav] at ha
          exact hvnot ha
        · intro w d hw
          by_cases hwv : w = v
          · subst hwv
            rw [show update dist w (some (k + 1)) w = some (some (k + 1)) by
              simp [update]] at hw
            injection hw with hw
            injection hw with hw
            omega
          · rw [show update dist v (some (k + 1)) w = dist w by
              simp [update, hwv]] at hw
            exact hinv.bound w d hw
        · intro w hw
          by_cases hwv : w = v
          · subst hwv
            simp [update]
          · rw [show update dist v (some (k + 1)) w = dist w by simp [update, hwv]]
            exact hinv.keys w hw
        · intro u' du' hdu' hu'
          have hu'v : u' ≠ v := by
            intro h
            subst h
            exact hu' (by simp)
          rw [show update dist v (some (k + 1)) u' = dist u' by
            simp [update, hu'v]] at hdu'
          have hu'old : u' ∉ (u :: qa') ++ qb := by
            intro hmem
            apply hu'
            rcases List.mem_append.mp hmem with h | h
            · exact List.mem_append.mpr (Or.inl h)
            · exact List.mem_append.mpr (Or.inr (List.mem_append.mpr (Or.inl h)))
          intro w hwadj
          obtain ⟨dw, hdw, hle⟩ := hinv.retired u' du' hdu' hu'old w hwadj
          have hwv : w ≠ v := by
            intro h
            rw [h, hv] at hdw
            simp at hdw
          refine ⟨dw, ?_, hle⟩
          rw [show update dist v (some (k + 1)) w = dist w by simp [update, hwv]]
          exact hdw
      have hdone2 : ∀ w ∈ done ++ [v], ∃ dw,
          (update dist v (some (k + 1))) w = some (some dw) ∧ dw ≤ k + 1 := by
        intro w hw
        rcases List.mem_append.mp hw with hw | hw
        · obtain ⟨dw, hdw, hle⟩ := hdone w hw
          have hwv : w ≠ v := by
            intro h
            rw [h, hv] at hdw
            simp at hdw
          exact ⟨dw, by
            rw [show update dist v (some (k + 1)) w = dist w by simp [update, hwv]]
            exact hdw, hle⟩
        · rw [List.mem_singleton.mp hw]
          exact ⟨k + 1, by simp [update], le_refl _⟩
      obtain ⟨qb2, dist2, heq, hinvf⟩ := ih (done ++ [v])
        (update dist v (some (k + 1))) qa' (qb ++ [v])
        (by rw [hsplit]; simp) hinv2 hdone2
      refine ⟨qb2, dist2, ?_, hinvf⟩
      rw [show (qa' ++ qb) ++ [v] = qa' ++ (qb ++ [v]) by simp]
      exact heq
    · rw [if_neg hv]
      have hvids : v ∈ ids := (hAdjIds u v hWadj).2
      have hkey := hinv.keys v hvids
      have hval : ∃ dv, dist v = some (some dv) ∧ dv ≤ k + 1 := by
        cases hx : dist v with
        | none => exact absurd hx hkey
        | some x =>
          cases x with
          | none => exact absurd hx hv
          | some dv => exact ⟨dv, rfl, hinv.bound v dv hx⟩
      apply ih (done ++ [v]) dist qa' qb (by rw [hsplit]; simp) hinv
      intro w hw
      rcases List.mem_append.mp hw with hw | hw
      · exact hdone w hw
      · rw [List.mem_singleton.mp hw]
        exact hval

/-- One dequeue step of the loop, packaged for the fuel induction. -/
theorem bfsLoop_final_body (links : List Link) (ids : List String)
    (adj : MapS (List String)) (s : String)
    (hAdj : ∀ w v, v ∈ (adj w).getD [] ↔ AdjRel links w v)
    (hAdjIds : ∀ w v, AdjRel links w v → w ∈ ids ∧ v ∈ ids)
    (fuel k : ℕ) (u : String) (qa' qb : List String) (dist D' : DistMap)
    (hinv : BfsInv links ids adj s k (u :: qa') qb dist)
    (hloop : bfsLoop adj (fuel + 1) ((u :: qa') ++ qb) dist = some D')
    (ih : ∀ (k : ℕ) (qa qb : List String) (dist : DistMap),
      BfsInv links ids adj s k qa qb dist →
      bfsLoop adj fuel (qa ++ qb) dist = some D' →
      BfsFinal links ids adj s D') :
    BfsFinal links ids adj s D' := by
  have hdu : dist u = some (some k) := hinv.leva u (by simp)
  have hread : readDist dist u = k := by
    rw [readDist, hdu]
  rw [List.cons_append] at hloop
  simp only [bfsLoop, hread] at hloop
  obtain ⟨qb2, dist2, heq, hinv2⟩ := bfs_fold_inv links ids adj s k u hAdj hAdjIds
    ((adj u).getD []) [] dist qa' qb (by simp) hinv (by simp)
  rw [heq] at hloop
  exact ih k qa' qb2 dist2 hinv2 hloop

/-- Running the loop from any invariant state to completion produces the
drained-queue facts. -/
theorem bfsLoop_final (links : List Link) (ids : List String)
    (adj : MapS (List String)) (s : String)
    (hAdj : ∀ w v, v ∈ (adj w).getD [] ↔ AdjRel links w v)
    (hAdjIds : ∀ w v, AdjRel links w v → w ∈ ids ∧ v ∈ ids) :
    ∀ (fuel k : ℕ) (qa qb : List String) (dist D' : DistMap),
      BfsInv links ids adj s k qa qb dist →
      bfsLoop adj fuel (qa ++ qb) dist = some D' →
      BfsFinal links ids adj s D' := by
  intro fuel
  induction fuel with
  | zero =>
    intro k qa qb dist D' hinv hloop
    cases hq : qa ++ qb with
    | nil =>
      rw [hq, bfsLoop_nil] at hloop
      injection hloop with h
      exact h ▸ hinv.toFinal hq
    | cons u q' =>
      rw [hq] at hloop
      exact absurd hloop (by simp [bfsLoop])
  | succ fuel ih =>
    intro k qa qb dist D' hinv hloop
    cases hqa : qa with
    | cons u qa' =>
      subst hqa
      exact bfsLoop_final_body links ids adj s hAdj hAdjIds fuel k u qa' qb dist D'
        hinv hloop (fun k2 qa2 qb2 dist2 h1 h2 => ih k2 qa2 qb2 dist2 D' h1 h2)
    | nil =>
      subst hqa
      cases hqb : qb with
      | nil =>
        subst hqb
        rw [List.nil_append, bfsLoop_nil] at hloop
        injection hloop with h
        exact h ▸ hinv.toFinal rfl
      | cons u qb' =>
        subst hqb
        have hinv2 : BfsInv links ids adj s (k + 1) (u :: qb') [] dist := hinv.shift
        have hloop2 : bfsLoop adj (fuel + 1) ((u :: qb') ++ []) dist = some D' := by
          simpa using hloop
        exact bfsLoop_final_body links ids adj s hAdj hAdjIds fuel (k + 1) u qb' []
          dist D' hinv2 hloop2
          (fun k2 qa2 qb2 dist2 h1 h2 => ih k2 qa2 qb2 dist2 D' h1 h2)

/-- Full BFS correctness on graphs whose links join distinct existing
node ids: a finite entry is exactly the least walk length, the sentinel
means unreachable, and every node id has an entry. -/
theorem bfs_correct (nodes : List Node) (links : List Link)
    (hlk : ∀ e ∈ links, e.source ∈ nodes.map Node.id ∧
      e.target ∈ nodes.map Node.id)
    (hsl : ∀ e ∈ links, e.source ≠ e.target) (s : String) :
    ∀ t ∈ nodes.map Node.id,
      (∀ d, bfsDistances nodes links s t = some (some d) ↔
        (WalkLen links s t d ∧ ∀ m, WalkLen links s t m → d ≤ m)) ∧
      (bfsDistances nodes links s t = some none ↔
        ¬ ∃ m, WalkLen links s t m) ∧
      bfsDistances nodes links s t ≠ none := by
  obtain ⟨hAdj, hDom⟩ := buildAdj_spec nodes links hlk hsl
  have hAdjIds : ∀ w v, AdjRel links w v →
      w ∈ nodes.map Node.id ∧ v ∈ nodes.map Node.id := by
    rintro w v ⟨e, he, hor⟩
    obtain ⟨h1, h2⟩ := hlk e he
    rcases hor with ⟨ha, hb⟩ | ⟨ha, hb⟩
    · exact ⟨ha ▸ h1, hb ▸ h2⟩
    · exact ⟨hb ▸ h2, ha ▸ h1⟩
  obtain ⟨D, hD, hEq⟩ := bfsDistances_eq_loop nodes links s
  have hinv0 : BfsInv links (nodes.map Node.id) (buildAdj nodes links) s 0 [s] []
      (initDist nodes s) := by
    refine ⟨?_, ?_, ?_, ?_, ?_, ?_, ?_, ?_⟩
    · intro v d hv
      rw [initDist_eval] at hv
      by_cases hvs : v = s
      · rw [if_pos hvs] at hv
        injection hv with hv
        injection hv with hv
        subst hvs
        exact hv ▸ WalkLen.refl v
      · rw [if_neg hvs] at hv
        split_ifs at hv <;> simp_all
    · rw [initDist_eval, if_pos rfl]
    · intro v hv
      rw [List.mem_singleton.mp hv, initDist_eval, if_pos rfl]
    · intro v hv
      cases hv
    · simp
    · intro v d hv
      rw [initDist_eval] at hv
      by_cases hvs : v = s
      · rw [if_pos hvs] at hv
        injection hv with hv
        injection hv with hv
        omega
      · rw [if_neg hvs] at hv
        split_ifs at hv <;> simp_all
    · intro v hv
      rw [initDist_eval]
      by_cases hvs : v = s
      · rw [if_pos hvs]
        simp
      · rw [if_neg hvs, if_pos hv]
        simp
    · intro u du hdu hu
      rw [initDist_eval] at hdu
      by_cases hus : u = s
      · exact absurd (by rw [hus]; simp : u ∈ [s] ++ ([] : List String)) hu
      · rw [if_neg hus] at hdu
        split_ifs at hdu <;> simp_all
  have hfin : BfsFinal links (nodes.map Node.id) (buildAdj nodes links) s D :=
    bfsLoop_final links (nodes.map Node.id) (buildAdj nodes links) s hAdj hAdjIds
      (nodes.length + 1) 0 [s] [] (initDist nodes s) D hinv0 (by simpa using hD)
  have hle : ∀ (m : ℕ) (v : String), WalkLen links s v m →
      ∃ d, D v = some (some d) ∧ d ≤ m := by
    intro m v hw
    induction hw with
    | refl => exact ⟨0, hfin.start0, le_refl 0⟩
    | step hw' he ihw =>
      obtain ⟨du, hdu, hdule⟩ := ihw
      obtain ⟨dv, hdv, hdvle⟩ := hfin.retiredAll _ du hdu _ ((hAdj _ _).mpr he)
      exact ⟨dv, hdv, by omega⟩
  rw [hEq]
  intro t ht
  constructor
  · intro d
    constructor
    · intro hd
      refine ⟨hfin.sound t d hd, ?_⟩
      intro m hm
      obtain ⟨d', hd', hle'⟩ := hle m t hm
      rw [hd] at hd'
      injection hd' with h
      injection h with h
      omega
    · rintro ⟨hw, hmin⟩
      obtain ⟨d', hd', hle'⟩ := hle d t hw
      have h1 := hmin d' (hfin.sound t d' hd')
      have hdd : d = d' := le_antisymm h1 hle'
      rw [hdd]
      exact hd'
  · refine ⟨⟨?_, ?_⟩, hfin.keys t ht⟩
    · rintro hnone ⟨m, hm⟩
      obtain ⟨d', hd', _⟩ := hle m t hm
      rw [hnone] at hd'
      injection hd' with h
      exact absurd h (by simp)
    · intro hnr
      have hne := hfin.keys t ht
      cases hx : D t with
      | none => exact absurd hx hne
      | some x =>
        cases x with
        | none => rfl
        | some d => exact absurd ⟨d, hfin.sound t d hx⟩ hnr

/-- No two stored links join the same unordered pair of ids. -/
def NoDupEdges (links : List Link) : Prop :=
  links.Pairwise (fun e1 e2 =>
    ¬ ((e1.source = e2.source ∧ e1.target = e2.target) ∨
       (e1.source = e2.target ∧ e1.target = e2.source)))

instance (links : List Link) : Decidable (NoDupEdges links) := by
  unfold NoDupEdges
  infer_instance

/-- C4: on every undirected simple graph — distinct node ids, links
joining distinct existing ids, no duplicate edges — the distance matrix
produced by `distanceMatrix` has a zero diagonal and is symmetric. -/
theorem distanceMatrix_diag_symm (nodes : List Node) (links : List Link)
    (hnd : (nodes.map Node.id).Nodup)
    (hlk : ∀ e ∈ links, e.source ∈ nodes.map Node.id ∧
      e.target ∈ nodes.map Node.id)
    (hsl : ∀ e ∈ links, e.source ≠ e.target)
    (hdup : NoDupEdges links) :
    (∀ i, i < nodes.length →
      ((distanceMatrix nodes links).2.getD i []).getD i none = some 0) ∧
    (∀ i j, i < nodes.length → j < nodes.length →
      ((distanceMatrix nodes links).2.getD i []).getD j none =
        ((distanceMatrix nodes links).2.getD j []).getD i none) := by
  have hids : (nodes.map Node.id).length = nodes.length := List.length_map _ _
  have hmem : ∀ i, i < nodes.length →
      (nodes.map Node.id).getD i "" ∈ nodes.map Node.id := by
    intro i hi
    rw [List.getD_eq_getElem _ _ (by omega)]
    exact List.getElem_mem _
  constructor
  · intro i hi
    rw [distanceMatrix_entry nodes links i i hi hi]
    have h := (bfs_correct nodes links hlk hsl ((nodes.map Node.id).getD i "")
      ((nodes.map Node.id).getD i "") (hmem i hi)).1 0
    rw [h.mpr ⟨WalkLen.refl _, fun m _ => Nat.zero_le m⟩]
    rfl
  · intro i j hi hj
    rw [distanceMatrix_entry nodes links i j hi hj,
      distanceMatrix_entry nodes links j i hj hi]
    obtain ⟨hiffab, hnoneab, hkeyab⟩ := bfs_correct nodes links hlk hsl
      ((nodes.map Node.id).getD i "") ((nodes.map Node.id).getD j "") (hmem j hj)
    obtain ⟨hiffba, hnoneba, hkeyba⟩ := bfs_correct nodes links hlk hsl
      ((nodes.map Node.id).getD j "") ((nodes.map Node.id).getD i "") (hmem i hi)
    cases hx : bfsDistances nodes links ((nodes.map Node.id).getD i "")
        ((nodes.map Node.id).getD j "") with
    | none => exact absurd hx hkeyab
    | some x =>
      cases x with
      | none =>
        have hnr := hnoneab.mp hx
        have hnr' : ¬ ∃ m, WalkLen links ((nodes.map Node.id).getD j "")
            ((nodes.map Node.id).getD i "") m := by
          rintro ⟨m, hm⟩
          exact hnr ⟨m, hm.reverse⟩
        rw [hnoneba.mpr hnr']
      | some d =>
        obtain ⟨hw, hmin⟩ := (hiffab d).mp hx
        have hrev : WalkLen links ((nodes.map Node.id).getD j "")
            ((nodes.map Node.id).getD i "") d := hw.reverse
        have hminrev : ∀ m, WalkLen links ((nodes.map Node.id).getD j "")
            ((nodes.map Node.id).getD i "") m → d ≤ m :=
          fun m hm => hmin m hm.reverse
        rw [(hiffba d).mpr ⟨hrev, hminrev⟩]

theorem distanceMatrix_diag_symm_witness :
    ((pathNodes.map Node.id).Nodup ∧
      (∀ e ∈ pathLinks, e.source ∈ pathNodes.map Node.id ∧
        e.target ∈ pathNodes.map Node.id) ∧
      (∀ e ∈ pathLinks, e.source ≠ e.target) ∧ NoDupEdges pathLinks) ∧
    ((distanceMatrix pathNodes pathLinks).2.getD 0 []).getD 0 none = some 0 ∧
    ((distanceMatrix pathNodes pathLinks).2.getD 0 []).getD 2 none =
      ((distanceMatrix pathNodes pathLinks).2.getD 2 []).getD 0 none := by
  have h := distanceMatrix_diag_symm pathNodes pathLinks (by decide) (by decide)
    (by decide) (by decide)
  exact ⟨⟨by decide, by decide, by decide, by decide⟩,
    h.1 0 (by decide), h.2 0 2 (by decide) (by decide)⟩

/-! ### C8: the matrix routines and their effect on the caller's rows

JS matrices are arrays of row arrays, and rows are mutable objects with
identity: `A[i][j] = v` writes through a reference.  To make the
no-mutation claim a real statement, rows live in an explicit store (heap)
addressed by allocation order, and a matrix value is the list of its rows'
addresses.  `map`, `slice`, `concat` and `Array.from` allocate fresh rows;
element assignment mutates a row in place (`writeRow`).  Out-of-range
reads are JS `undefined`; they occur only for ragged or empty inputs and
are modeled by the defaults `[]` / `0`. -/

abbrev Store := List (List ℚ)

abbrev MatrixRef := List ℕ

/-- Dereference a row address. -/
def readRow (s : Store) (a : ℕ) : List ℚ := s.getD a []

/-- Read cell `j` of the row at address `a`. -/
def readCell (s : Store) (a j : ℕ) : ℚ := (readRow s a).getD j 0

/-- Overwrite the row at address `a` in place. -/
def writeRow (s : Store) (a : ℕ) (r : List ℚ) : Store := s.set a r

/-- Allocate fresh rows at the end of the store, returning their
addresses in order. -/
def allocRows (s : Store) (rs : List (List ℚ)) : MatrixRef × Store :=
  ((List.range rs.length).map (fun t => s.length + t), s ++ rs)

/-- The first `n` store rows — everything the caller can hold a reference
to — agree between `s` and `s2`. -/
def framedOn (n : ℕ) (s s2 : Store) : Prop :=
  ∀ k, k < n → readRow s2 k = readRow s k

instance (n : ℕ) (s s2 : Store) : Decidable (framedOn n s s2) := by
  unfold framedOn; infer_instance

/-- The pivot threshold, the source literal `1e-12`, as the exact
rational 10⁻¹² (`mkRat` so that concrete comparisons evaluate;
`eps12_eq` below checks the value). -/
def eps12 : ℚ := mkRat 1 (10 ^ 12)

/-- The rows `A.map((row, i) => row.map((v, j) => v + B[i][j]))` built by
`matrixAdd`. -/
def addRows (s : Store) (A B : MatrixRef) : List (List ℚ) :=
  A.mapIdx (fun i a => (readRow s a).mapIdx (fun j v => v + readCell s (B.getD i 0) j))

/-- `matrixAdd` (EquationEditor.tsx lines 186-189).  `A.map((row, i) =>
row.map((v, j) => v + B[i][j]))` allocates one fresh row per input row and
mutates nothing; every throw leaves the store untouched.  With
`A.length === B.length`, `A[0]` is `undefined` only when both are empty,
where `A[0].length` is a TypeError. -/
def matrixAdd (s : Store) (A B : MatrixRef) : Except String MatrixRef × Store :=
  if A.length ≠ B.length then (.error "Matrix sizes must match.", s)
  else
    match A, B with
    | a0 :: _, b0 :: _ =>
      if (readRow s a0).length ≠ (readRow s b0).length then
        (.error "Matrix sizes must match.", s)
      else
        let q := allocRows s (addRows s A B)
        (.ok q.1, q.2)
    | _, _ => (.error "TypeError: cannot read length of undefined", s)

/-- `matrixMul` (EquationEditor.tsx lines 191-201).  The output is an
`m × p` zero matrix of fresh rows; the triple loop accumulates
`out[i][j] += A[i][k] * B[k][j]` by mutating only those fresh rows.  The
inner `j`-loop runs over `j < p`, the exact length of each output row, so
it is one whole-row rebuild. -/
def matrixMul (s : Store) (A B : MatrixRef) : Except String MatrixRef × Store :=
  match A, B with
  | a0 :: _, b0 :: _ =>
    let m := A.length
    let n := (readRow s a0).length
    let p := (readRow s b0).length
    if n ≠ B.length then (.error "A columns must equal B rows.", s)
    else
      let q := allocRows s (List.replicate m (List.replicate p (0 : ℚ)))
      let s1 := (List.range m).foldl (fun si i =>
        (List.range n).foldl (fun sk k =>
          writeRow sk (q.1.getD i 0)
            ((readRow sk (q.1.getD i 0)).mapIdx (fun j v =>
              v + readCell sk (A.getD i 0) k * readCell sk (B.getD k 0) j))) si) q.2
      (.ok q.1, s1)
  | _, _ => (.error "TypeError: cannot read length of undefined", s)

/-- The pivot search `for (r = i; r < n; r++) if (Math.abs(M[r][i]) >
Math.abs(M[pivot][i])) pivot = r` shared by `determinant` and
`inverse`. -/
def pivotScan (s : Store) (ms : List ℕ) (i n : ℕ) : ℕ :=
  (rangeFrom i n).foldl (fun pivot r =>
    if |readCell s (ms.getD pivot 0) i| < |readCell s (ms.getD r 0) i| then r
    else pivot) i

/-- The destructuring swap `[M[p], M[i]] = [M[i], M[p]]`: it swaps the two
row references inside the (plain JS array) `M`, not the rows' contents. -/
def swapIdx (l : List ℕ) (p i : ℕ) : List ℕ :=
  (l.set p (l.getD i 0)).set i (l.getD p 0)

/-- `for (j = i; j < n; j++) row[j] /= d` as one whole-row rebuild. -/
def scaleRowFrom (row : List ℚ) (i n : ℕ) (d : ℚ) : List ℚ :=
  row.mapIdx (fun j v => if i ≤ j ∧ j < n then v / d else v)

/-- `for (j = i; j < n; j++) row[j] -= factor * prow[j]` as one whole-row
rebuild. -/
def subRowFrom (row prow : List ℚ) (i n : ℕ) (factor : ℚ) : List ℚ :=
  row.mapIdx (fun j v => if i ≤ j ∧ j < n then v - factor * prow.getD j 0 else v)

/-- State of `determinant`'s outer loop: still running (store, the array
`M` of row references, the accumulated `det`), or already returned by the
early `return 0`. -/
inductive DetSt : Type where
  | run (s : Store) (ms : List ℕ) (det : ℚ)
  | done (s : Store) (val : ℚ)

def DetSt.store : DetSt → Store
  | .run s _ _ => s
  | .done s _ => s

def DetSt.val : DetSt → ℚ
  | .run _ _ det => det
  | .done _ v => v

/-- One outer-loop iteration of `determinant` (column `i`): pivot search,
the early `return 0` (the `done` state, which freezes the store), the
swap with its sign flip, `det *= M[i][i]` (read before scaling), the
scaling of row `i` from column `i` on, and the elimination below row `i`.
Reads of `factor = M[r][i]` and of the scaled row `i` happen on the
current store, exactly as in the source. -/
def detStep (n : ℕ) (st : DetSt) (i : ℕ) : DetSt :=
  match st with
  | .done s v => .done s v
  | .run s ms det =>
    let pivot := pivotScan s ms i n
    if |readCell s (ms.getD pivot 0) i| < eps12 then .done s 0
    else
      let ms1 := if pivot ≠ i then swapIdx ms pivot i else ms
      let det1 := if pivot ≠ i then -det else det
      let det2 := det1 * readCell s (ms1.getD i 0) i
      let s1 := writeRow s (ms1.getD i 0)
        (scaleRowFrom (readRow s (ms1.getD i 0)) i n (readCell s (ms1.getD i 0) i))
      let s2 := (rangeFrom (i + 1) n).foldl (fun sr r =>
        writeRow sr (ms1.getD r 0)
          (subRowFrom (readRow sr (ms1.getD r 0)) (readRow sr (ms1.getD i 0)) i n
            (readCell sr (ms1.getD r 0) i))) s1
      .run s2 ms1 det2

/-- `determinant` (EquationEditor.tsx lines 203-227).  `A.map(r =>
r.slice())` copies every row of `A` into fresh store cells; the
elimination then mutates only those copies, and only the number `det`
is returned. -/
def determinant (s : Store) (A : MatrixRef) : Except String ℚ × Store :=
  match A with
  | [] => (.error "TypeError: cannot read length of undefined", s)
  | a0 :: _ =>
    if A.length ≠ (readRow s a0).length then
      (.error "Determinant requires a square matrix.", s)
    else
      let q := allocRows s (A.map (fun a => readRow s a))
      let fin := (List.range A.length).foldl (detStep A.length) (.run q.2 q.1 1)
      (.ok fin.val, fin.store)

/-- State of `inverse`'s outer loop: running, or thrown (singular
matrix), which freezes the store. -/
inductive InvSt : Type where
  | run (s : Store) (ms : List ℕ)
  | fail (s : Store)

def InvSt.store : InvSt → Store
  | .run s _ => s
  | .fail s => s

/-- One outer-loop iteration of `inverse` (column `i`): pivot search, the
singular throw, the reference swap, the scaling of the whole augmented
row (`j < 2n`) and the elimination over every other row `r ≠ i`. -/
def invStep (n : ℕ) (st : InvSt) (i : ℕ) : InvSt :=
  match st with
  | .fail s => .fail s
  | .run s ms =>
    let pivot := pivotScan s ms i n
    if |readCell s (ms.getD pivot 0) i| < eps12 then .fail s
    else
      let ms1 := if pivot ≠ i then swapIdx ms pivot i else ms
      let s1 := writeRow s (ms1.getD i 0)
        (scaleRowFrom (readRow s (ms1.getD i 0)) 0 (2 * n) (readCell s (ms1.getD i 0) i))
      let s2 := (List.range n).foldl (fun sr r =>
        if r = i then sr
        else
          writeRow sr (ms1.getD r 0)
            (subRowFrom (readRow sr (ms1.getD r 0)) (readRow sr (ms1.getD i 0)) 0 (2 * n)
              (readCell sr (ms1.getD r 0) i)) ) s1
      .run s2 ms1

/-- The augmented rows `A.map((r, i) => r.concat(Array.from({length: n},
(_, j) => (i === j ? 1 : 0))))` built by `inverse`. -/
def augRows (s : Store) (A : MatrixRef) : List (List ℚ) :=
  A.mapIdx (fun i a =>
    readRow s a ++ (List.range A.length).map (fun j => if i = j then (1 : ℚ) else 0))

/-- The result rows `M.map(r => r.slice(n))` built by `inverse`. -/
def sliceRows (s : Store) (ms : List ℕ) (n : ℕ) : List (List ℚ) :=
  ms.map (fun a => (readRow s a).drop n)

/-- `inverse` (EquationEditor.tsx lines 229-247).  The augmented matrix
`M` is built from fresh rows (`r.concat(identityRow)` copies), and the
final `M.map(r => r.slice(n))` returns fresh rows again. -/
def inverse (s : Store) (A : MatrixRef) : Except String MatrixRef × Store :=
  match A with
  | [] => (.error "TypeError: cannot read length of undefined", s)
  | a0 :: rest =>
    if (a0 :: rest).length ≠ (readRow s a0).length then
      (.error "Inverse requires a square matrix.", s)
    else
      let q := allocRows s (augRows s (a0 :: rest))
      match (List.range (a0 :: rest).length).foldl
          (invStep (a0 :: rest).length) (.run q.2 q.1) with
      | .fail s2 => (.error "Matrix is singular (no inverse).", s2)
      | .run s2 ms =>
        let q2 := allocRows s2 (sliceRows s2 ms (a0 :: rest).length)
        (.ok q2.1, q2.2)

theorem eps12_eq : eps12 = 1 / 10 ^ 12 := by
  norm_num [eps12, mkRat, Rat.normalize]

theorem framedOn_refl (n : ℕ) (s : Store) : framedOn n s s :=
  fun _ _ => rfl

theorem framedOn_trans {n : ℕ} {s1 s2 s3 : Store}
    (h1 : framedOn n s1 s2) (h2 : framedOn n s2 s3) : framedOn n s1 s3 :=
  fun k hk => (h2 k hk).trans (h1 k hk)

/-- Writing a row at an address outside the frame leaves the frame
unchanged. -/
theorem framedOn_writeRow (n : ℕ) (s : Store) (a : ℕ) (r : List ℚ)
    (h : n ≤ a) : framedOn n s (writeRow s a r) := by
  intro k hk
  have hne : a ≠ k := by omega
  simp [readRow, writeRow, List.getD, List.getElem?_set_ne hne]

/-- Appending rows never touches existing addresses. -/
theorem framedOn_append (n : ℕ) (s t : Store) (h : n ≤ s.length) :
    framedOn n s (s ++ t) := by
  intro k hk
  simp [readRow, List.getD, List.getElem?_append_left (by omega : k < s.length)]

theorem writeRow_length (s : Store) (a : ℕ) (r : List ℚ) :
    (writeRow s a r).length = s.length :=
  s.length_set a r

theorem allocRows_addr (s : Store) (rs : List (List ℚ)) :
    ∀ a ∈ (allocRows s rs).1, s.length ≤ a := by
  intro a ha
  simp only [allocRows, List.mem_map, List.mem_range] at ha
  obtain ⟨t, _, rfl⟩ := ha
  omega

theorem allocRows_len (s : Store) (rs : List (List ℚ)) :
    (allocRows s rs).1.length = rs.length := by
  simp [allocRows]

theorem allocRows_store (s : Store) (rs : List (List ℚ)) :
    (allocRows s rs).2 = s ++ rs := rfl

theorem allocRows_store_length (s : Store) (rs : List (List ℚ)) :
    (allocRows s rs).2.length = s.length + rs.length := by
  simp [allocRows]

/-- A fold preserves any invariant its steps preserve. -/
theorem foldl_invariant {α β : Type} (f : β → α → β) (P : β → Prop) :
    ∀ (l : List α) (b : β), P b → (∀ b' x, x ∈ l → P b' → P (f b' x)) →
      P (l.foldl f b) := by
  intro l
  induction l with
  | nil => intro b hb _; exact hb
  | cons x xs ih =>
    intro b hb hstep
    rw [List.foldl_cons]
    exact ih (f b x) (hstep b x (List.mem_cons_self x xs) hb)
      (fun b' y hy => hstep b' y (List.mem_cons_of_mem x hy))

/-- A fold whose every step is a frame-and-length-preserving store update
preserves the frame and the store length. -/
theorem foldl_frame_len {γ : Type} (n0 : ℕ) (f : Store → γ → Store) :
    ∀ (l : List γ),
      (∀ s' x, x ∈ l → framedOn n0 s' (f s' x) ∧ (f s' x).length = s'.length) →
      ∀ s : Store, framedOn n0 s (l.foldl f s) ∧ (l.foldl f s).length = s.length := by
  intro l
  induction l with
  | nil => intro _ s; exact ⟨framedOn_refl n0 s, rfl⟩
  | cons x xs ih =>
    intro hstep s
    rw [List.foldl_cons]
    obtain ⟨hf1, hl1⟩ := hstep s x (List.mem_cons_self x xs)
    obtain ⟨hf2, hl2⟩ := ih (fun s' y hy => hstep s' y (List.mem_cons_of_mem x hy)) (f s x)
    exact ⟨framedOn_trans hf1 hf2, hl2.trans hl1⟩

/-- The pivot index stays below `n`. -/
theorem pivotScan_lt (s : Store) (ms : List ℕ) (i n : ℕ) (hi : i < n) :
    pivotScan s ms i n < n := by
  refine foldl_invariant _ (fun p => p < n) (rangeFrom i n) i hi ?_
  intro p r hr _
  by_cases hc : |readCell s (ms.getD p 0) i| < |readCell s (ms.getD r 0) i|
  · rw [if_pos hc]; exact ((mem_rangeFrom i n r).mp hr).2
  · rw [if_neg hc]; assumption

theorem swapIdx_length (l : List ℕ) (p i : ℕ) :
    (swapIdx l p i).length = l.length := by
  simp [swapIdx]

/-- With both indices in range, the reference swap permutes without
introducing new addresses. -/
theorem swapIdx_mem (l : List ℕ) (p i : ℕ) (hp : p < l.length)
    (hi : i < l.length) : ∀ a ∈ swapIdx l p i, a ∈ l := by
  intro a ha
  rcases List.mem_or_eq_of_mem_set ha with ha1 | rfl
  · rcases List.mem_or_eq_of_mem_set ha1 with ha2 | rfl
    · exact ha2
    · rw [List.getD_eq_getElem l 0 hi]; exact List.getElem_mem hi
  · rw [List.getD_eq_getElem l 0 hp]; exact List.getElem_mem hp

/-- A `getD`-read of an in-range position is a member. -/
theorem getD_mem (l : List ℕ) (k : ℕ) (hk : k < l.length) : l.getD k 0 ∈ l := by
  rw [List.getD_eq_getElem l 0 hk]; exact List.getElem_mem hk

/-- Invariant of `determinant`'s outer loop: the caller frame is intact,
the store has only grown, and the working row references `M` are all
fresh, with exactly `n` of them. -/
def detFrame (n : ℕ) (base : Store) : DetSt → Prop
  | .run s ms _ => framedOn base.length base s ∧ base.length ≤ s.length ∧
      (∀ a ∈ ms, base.length ≤ a) ∧ ms.length = n
  | .done s _ => framedOn base.length base s ∧ base.length ≤ s.length

/-- Invariant of `inverse`'s outer loop, as for `determinant`. -/
def invFrame (n : ℕ) (base : Store) : InvSt → Prop
  | .run s ms => framedOn base.length base s ∧ base.length ≤ s.length ∧
      (∀ a ∈ ms, base.length ≤ a) ∧ ms.length = n
  | .fail s => framedOn base.length base s ∧ base.length ≤ s.length

/-- The swapped (or kept) reference array has the same members and
length. -/
theorem swapOrKeep (ms : List ℕ) (p i : ℕ) (hp : p < ms.length)
    (hi : i < ms.length) :
    (∀ a ∈ (if p ≠ i then swapIdx ms p i else ms), a ∈ ms) ∧
      (if p ≠ i then swapIdx ms p i else ms).length = ms.length := by
  split
  · exact ⟨swapIdx_mem ms p i hp hi, swapIdx_length ms p i⟩
  · exact ⟨fun a ha => ha, rfl⟩

/-- One `determinant` step preserves the frame invariant. -/
theorem detStep_frame (n : ℕ) (base : Store) (st : DetSt) (i : ℕ)
    (hi : i < n) (h : detFrame n base st) :
    detFrame n base (detStep n st i) := by
  cases st with
  | done s v => exact h
  | run s ms det =>
    obtain ⟨hf, hlen, hfr, hlms⟩ := h
    by_cases hc : |readCell s (ms.getD (pivotScan s ms i n) 0) i| < eps12
    · simp only [detStep]
      rw [if_pos hc]
      exact ⟨hf, hlen⟩
    · simp only [detStep]
      rw [if_neg hc]
      have hpl : pivotScan s ms i n < ms.length := by
        rw [hlms]; exact pivotScan_lt s ms i n hi
      have hil : i < ms.length := by omega
      obtain ⟨hmem1, hlen1⟩ := swapOrKeep ms (pivotScan s ms i n) i hpl hil
      generalize hm : (if pivotScan s ms i n ≠ i then
          swapIdx ms (pivotScan s ms i n) i else ms) = ms1 at hmem1 hlen1 ⊢
      have hfr1 : ∀ a ∈ ms1, base.length ≤ a := fun a ha => hfr a (hmem1 a ha)
      have haddri : base.length ≤ ms1.getD i 0 :=
        hfr1 _ (getD_mem ms1 i (by omega))
      have hfold := foldl_frame_len base.length
        (fun sr r => writeRow sr (ms1.getD r 0)
          (subRowFrom (readRow sr (ms1.getD r 0)) (readRow sr (ms1.getD i 0)) i n
            (readCell sr (ms1.getD r 0) i)))
        (rangeFrom (i + 1) n)
        (fun sr r hr => by
          have hrn : r < n := ((mem_rangeFrom (i + 1) n r).mp hr).2
          have haddr : base.length ≤ ms1.getD r 0 :=
            hfr1 _ (getD_mem ms1 r (by omega))
          exact ⟨framedOn_writeRow _ _ _ _ haddr, writeRow_length _ _ _⟩)
        (writeRow s (ms1.getD i 0)
          (scaleRowFrom (readRow s (ms1.getD i 0)) i n (readCell s (ms1.getD i 0) i)))
      refine ⟨framedOn_trans hf
        (framedOn_trans (framedOn_writeRow _ _ _ _ haddri) hfold.1), ?_, hfr1, by omega⟩
      rw [hfold.2, writeRow_length]
      exact hlen

/-- One `inverse` step preserves the frame invariant. -/
theorem invStep_frame (n : ℕ) (base : Store) (st : InvSt) (i : ℕ)
    (hi : i < n) (h : invFrame n base st) :
    invFrame n base (invStep n st i) := by
  cases st with
  | fail s => exact h
  | run s ms =>
    obtain ⟨hf, hlen, hfr, hlms⟩ := h
    by_cases hc : |readCell s (ms.getD (pivotScan s ms i n) 0) i| < eps12
    · simp only [invStep]
      rw [if_pos hc]
      exact ⟨hf, hlen⟩
    · simp only [invStep]
      rw [if_neg hc]
      have hpl : pivotScan s ms i n < ms.length := by
        rw [hlms]; exact pivotScan_lt s ms i n hi
      have hil : i < ms.length := by omega
      obtain ⟨hmem1, hlen1⟩ := swapOrKeep ms (pivotScan s ms i n) i hpl hil
      generalize hm : (if pivotScan s ms i n ≠ i then
          swapIdx ms (pivotScan s ms i n) i else ms) = ms1 at hmem1 hlen1 ⊢
      have hfr1 : ∀ a ∈ ms1, base.length ≤ a := fun a ha => hfr a (hmem1 a ha)
      have haddri : base.length ≤ ms1.getD i 0 :=
        hfr1 _ (getD_mem ms1 i (by omega))
      have hfold := foldl_frame_len base.length
        (fun sr r =>
          if r = i then sr
          else
            writeRow sr (ms1.getD r 0)
              (subRowFrom (readRow sr (ms1.getD r 0)) (readRow sr (ms1.getD i 0)) 0 (2 * n)
                (readCell sr (ms1.getD r 0) i)))
        (List.range n)
        (fun sr r hr => by
          dsimp only
          have hrn : r < n := List.mem_range.mp hr
          by_cases hri : r = i
          · rw [if_pos hri]
            exact ⟨framedOn_refl _ _, rfl⟩
          · rw [if_neg hri]
            have haddr : base.length ≤ ms1.getD r 0 :=
              hfr1 _ (getD_mem ms1 r (by omega))
            exact ⟨framedOn_writeRow _ _ _ _ haddr, writeRow_length _ _ _⟩)
        (writeRow s (ms1.getD i 0)
          (scaleRowFrom (readRow s (ms1.getD i 0)) 0 (2 * n) (readCell s (ms1.getD i 0) i)))
      refine ⟨framedOn_trans hf
        (framedOn_trans (framedOn_writeRow _ _ _ _ haddri) hfold.1), ?_, hfr1, by omega⟩
      rw [hfold.2, writeRow_length]
      exact hlen

/-- The fresh working copies allocated at the top of `determinant` and
`inverse` start the loop in the frame invariant. -/
theorem allocRows_invariant (s : Store) (rs : List (List ℚ)) :
    framedOn s.length s (allocRows s rs).2 ∧ s.length ≤ (allocRows s rs).2.length ∧
      (∀ a ∈ (allocRows s rs).1, s.length ≤ a) ∧ (allocRows s rs).1.length = rs.length := by
  refine ⟨?_, ?_, allocRows_addr s rs, allocRows_len s rs⟩
  · rw [allocRows_store]; exact framedOn_append _ _ _ le_rfl
  · rw [allocRows_store_length]; omega

/-- `matrixAdd` never changes an existing store row and returns only
freshly allocated row addresses. -/
theorem matrixAdd_frame (s : Store) (A B : MatrixRef) :
    framedOn s.length s (matrixAdd s A B).2 ∧
      ∀ r, (matrixAdd s A B).1 = .ok r → ∀ a ∈ r, s.length ≤ a := by
  unfold matrixAdd
  split
  · exact ⟨framedOn_refl _ _, fun r hr => by simp at hr⟩
  · split
    · split
      · exact ⟨framedOn_refl _ _, fun r hr => by simp at hr⟩
      · dsimp only
        refine ⟨?_, ?_⟩
        · rw [allocRows_store]
          exact framedOn_append _ _ _ le_rfl
        · intro r hr
          injection hr with hr'
          subst hr'
          exact allocRows_addr _ _
    · exact ⟨framedOn_refl _ _, fun r hr => by simp at hr⟩

/-- The triple accumulation loop of `matrixMul` writes only to the fresh
output rows. -/
theorem mulFold_frame (s : Store) (out A B : MatrixRef) (m n : ℕ)
    (hout : ∀ a ∈ out, s.length ≤ a) (hm : m ≤ out.length) :
    ∀ s0 : Store, framedOn s.length s0
      ((List.range m).foldl (fun si i =>
        (List.range n).foldl (fun sk k =>
          writeRow sk (out.getD i 0)
            ((readRow sk (out.getD i 0)).mapIdx (fun j v =>
              v + readCell sk (A.getD i 0) k * readCell sk (B.getD k 0) j))) si) s0) := by
  intro s0
  refine (foldl_frame_len s.length _ (List.range m) ?_ s0).1
  intro si i hi
  have him : i < out.length := lt_of_lt_of_le (List.mem_range.mp hi) hm
  have haddr : s.length ≤ out.getD i 0 := hout _ (getD_mem out i him)
  exact foldl_frame_len s.length _ (List.range n)
    (fun sk k _ => ⟨framedOn_writeRow _ _ _ _ haddr, writeRow_length _ _ _⟩) si

/-- `matrixMul` never changes an existing store row and returns only
freshly allocated row addresses. -/
theorem matrixMul_frame (s : Store) (A B : MatrixRef) :
    framedOn s.length s (matrixMul s A B).2 ∧
      ∀ r, (matrixMul s A B).1 = .ok r → ∀ a ∈ r, s.length ≤ a := by
  unfold matrixMul
  split
  · rename_i a0 as b0 bs
    dsimp only
    split
    · exact ⟨framedOn_refl _ _, fun r hr => by simp at hr⟩
    · refine ⟨?_, ?_⟩
      · refine framedOn_trans ?_
          (mulFold_frame s _ (a0 :: as) (b0 :: bs) _ _ (allocRows_addr s _) ?_ _)
        · rw [allocRows_store]
          exact framedOn_append _ _ _ le_rfl
        · rw [allocRows_len, List.length_replicate]
      · intro r hr
        injection hr with hr'
        subst hr'
        exact allocRows_addr _ _
  · exact ⟨framedOn_refl _ _, fun r hr => by simp at hr⟩

/-- `determinant` never changes an existing store row: it only mutates
the fresh copies `A.map(r => r.slice())`. -/
theorem determinant_frame (s : Store) (A : MatrixRef) :
    framedOn s.length s (determinant s A).2 := by
  unfold determinant
  split
  · exact framedOn_refl _ _
  · rename_i a0 rest
    split
    · exact framedOn_refl _ _
    · dsimp only
      have h0 : detFrame (a0 :: rest).length s
          (.run (allocRows s ((a0 :: rest).map (fun a => readRow s a))).2
            (allocRows s ((a0 :: rest).map (fun a => readRow s a))).1 1) := by
        obtain ⟨h1, h2, h3, h4⟩ := allocRows_invariant s ((a0 :: rest).map (fun a => readRow s a))
        exact ⟨h1, h2, h3, by rw [h4, List.length_map]⟩
      have hfold := foldl_invariant (detStep (a0 :: rest).length)
        (detFrame (a0 :: rest).length s) (List.range (a0 :: rest).length) _ h0
        (fun st' i hi h' =>
          detStep_frame (a0 :: rest).length s st' i (List.mem_range.mp hi) h')
      cases hres : (List.range (a0 :: rest).length).foldl (detStep (a0 :: rest).length)
          (.run (allocRows s ((a0 :: rest).map (fun a => readRow s a))).2
            (allocRows s ((a0 :: rest).map (fun a => readRow s a))).1 1) with
      | run s2 ms2 det2 =>
        rw [hres] at hfold
        exact hfold.1
      | done s2 v =>
        rw [hres] at hfold
        exact hfold.1

/-- `inverse` never changes an existing store row and returns only
freshly allocated row addresses. -/
theorem inverse_frame (s : Store) (A : MatrixRef) :
    framedOn s.length s (inverse s A).2 ∧
      ∀ r, (inverse s A).1 = .ok r → ∀ a ∈ r, s.length ≤ a := by
  unfold inverse
  split
  · exact ⟨framedOn_refl _ _, fun r hr => by simp at hr⟩
  · rename_i a0 rest
    split
    · exact ⟨framedOn_refl _ _, fun r hr => by simp at hr⟩
    · dsimp only
      have h0 : invFrame (a0 :: rest).length s
          (.run (allocRows s (augRows s (a0 :: rest))).2
            (allocRows s (augRows s (a0 :: rest))).1) := by
        obtain ⟨h1, h2, h3, h4⟩ := allocRows_invariant s (augRows s (a0 :: rest))
        refine ⟨h1, h2, h3, ?_⟩
        rw [h4]
        simp [augRows, List.length_mapIdx]
      have hfold := foldl_invariant (invStep (a0 :: rest).length)
        (invFrame (a0 :: rest).length s) (List.range (a0 :: rest).length) _ h0
        (fun st' i hi h' =>
          invStep_frame (a0 :: rest).length s st' i (List.mem_range.mp hi) h')
      cases hres : (List.range (a0 :: rest).length).foldl (invStep (a0 :: rest).length)
          (.run (allocRows s (augRows s (a0 :: rest))).2
            (allocRows s (augRows s (a0 :: rest))).1) with
      | fail s2 =>
        rw [hres] at hfold
        exact ⟨hfold.1, fun r hr => by simp at hr⟩
      | run s2 ms2 =>
        rw [hres] at hfold
        dsimp only
        refine ⟨?_, ?_⟩
        · refine framedOn_trans hfold.1 ?_
          rw [allocRows_store]
          exact framedOn_append _ _ _ hfold.2.1
        · intro r hr
          injection hr with hr'
          subst hr'
          exact fun a ha => le_trans hfold.2.1 (allocRows_addr s2 _ a ha)

/-- A four-row store and a one-row store used to exercise the matrix
routines on concrete inputs. -/
def demoStore : Store := [[1, 2], [3, 4], [2, 0], [1, 1]]

def invStore : Store := [[2]]

/-- C8 (frame_effect): for every store of caller-visible rows and every
choice of argument matrices (row-address lists), `matrixAdd`,
`matrixMul`, `determinant` and `inverse` leave every pre-existing store
row unchanged — the caller-supplied matrices are never mutated — and any
matrix they return is built exclusively from freshly allocated rows
(addresses at or past the original end of the store). -/
theorem matrixOps_no_mutation :
    (∀ (s : Store) (A B : MatrixRef),
      framedOn s.length s (matrixAdd s A B).2 ∧
        ∀ r, (matrixAdd s A B).1 = .ok r → ∀ a ∈ r, s.length ≤ a) ∧
    (∀ (s : Store) (A B : MatrixRef),
      framedOn s.length s (matrixMul s A B).2 ∧
        ∀ r, (matrixMul s A B).1 = .ok r → ∀ a ∈ r, s.length ≤ a) ∧
    (∀ (s : Store) (A : MatrixRef), framedOn s.length s (determinant s A).2) ∧
    (∀ (s : Store) (A : MatrixRef),
      framedOn s.length s (inverse s A).2 ∧
        ∀ r, (inverse s A).1 = .ok r → ∀ a ∈ r, s.length ≤ a) :=
  ⟨matrixAdd_frame, matrixMul_frame, determinant_frame, inverse_frame⟩

theorem matrixOps_no_mutation_witness :
    ((matrixAdd demoStore [0, 1] [2, 3]).1 = .ok [4, 5] ∧
      ∀ a ∈ ([4, 5] : MatrixRef), demoStore.length ≤ a) ∧
    ((matrixMul demoStore [0, 1] [2, 3]).1 = .ok [4, 5] ∧
      ∀ a ∈ ([4, 5] : MatrixRef), demoStore.length ≤ a) ∧
    framedOn demoStore.length demoStore (determinant demoStore [0, 1]).2 ∧
    ((inverse invStore [0]).1 = .ok [2] ∧
      ∀ a ∈ ([2] : MatrixRef), invStore.length ≤ a) := by
  obtain ⟨hadd, hmul, hdet, hinv⟩ := matrixOps_no_mutation
  have ha : (matrixAdd demoStore [0, 1] [2, 3]).1 = .ok [4, 5] := by decide
  have hm : (matrixMul demoStore [0, 1] [2, 3]).1 = .ok [4, 5] := by decide
  have hi : (inverse invStore [0]).1 = .ok [2] := by decide
  exact ⟨⟨ha, (hadd demoStore [0, 1] [2, 3]).2 [4, 5] ha⟩,
    ⟨hm, (hmul demoStore [0, 1] [2, 3]).2 [4, 5] hm⟩,
    hdet demoStore [0, 1],
    ⟨hi, (hinv invStore [0]).2 [2] hi⟩⟩

end MathCalc


